import Mathlib

/-!
Verification of `drprojver.py`, a tool that rewrites a project-version marker
inside entries of a zip-like container.

The embedding works at the level the Python code works at:
entry contents are byte lists (`List Nat`), the patchers decode them as
strict UTF-8 (`utf8Decode`), search a fixed pattern over the decoded
character list, splice the replacement by character offsets, and re-encode
(`utf8Encode`).  The two regular expressions of the source are fixed
patterns whose character classes and literals are disjoint at every
boundary, so greedy maximal-munch scanning is an exact model of
`re.search`.  Assertion failures are modelled as an `Except` error carrying
the captured value, mirroring the `AssertionError` payload of the source;
invalid UTF-8 is a distinct error that the rewriter loop does not catch.
-/

set_option maxHeartbeats 1600000
set_option maxRecDepth 8000

/-- Whitespace class modelling `\s` of the source's patterns (the ASCII
whitespace characters; the inputs of interest are ASCII XML text). -/
def isWSChar (c : Char) : Bool :=
  c = ' ' || c = '\t' || c = '\n' || c = '\r' || c = '\x0b' || c = '\x0c'

/-- Digit class modelling `\d` of the source's patterns. -/
def isDigitChar (c : Char) : Bool :=
  c.isDigit

/-- Character class modelling `[\d.]` of the dual-capture pattern. -/
def isVerChar (c : Char) : Bool :=
  c.isDigit || c = '.'

theorem isDigitChar_not_ws {c : Char} (h : isDigitChar c = true) : isWSChar c = false := by
  by_contra hw
  rw [Bool.not_eq_false] at hw
  simp only [isWSChar, Bool.or_eq_true, decide_eq_true_eq] at hw
  rcases hw with ((((rfl | rfl) | rfl) | rfl) | rfl) | rfl <;>
    simp_all [isDigitChar, Char.isDigit]

theorem isVerChar_not_ws {c : Char} (h : isVerChar c = true) : isWSChar c = false := by
  by_contra hw
  rw [Bool.not_eq_false] at hw
  simp only [isWSChar, Bool.or_eq_true, decide_eq_true_eq] at hw
  rcases hw with ((((rfl | rfl) | rfl) | rfl) | rfl) | rfl <;>
    simp_all [isVerChar, Char.isDigit]

/-- Continuation-byte test for strict UTF-8 decoding. -/
def isCont (b : Nat) : Bool :=
  0x80 ≤ b && b < 0xC0

/-- One strict UTF-8 decoding step: reads the leading byte and its
continuation bytes, returning the code point and the remaining bytes.
Rejects truncated sequences, stray continuation bytes, overlong
encodings, surrogates and code points beyond U+10FFFF, as Python's
strict `bytes.decode()` does. -/
def utf8DecodeStep (b0 : Nat) (l : List Nat) : Option (Nat × List Nat) :=
  if b0 < 0x80 then some (b0, l)
  else if b0 < 0xC2 then none
  else if b0 < 0xE0 then
    match l with
    | b1 :: l1 =>
      if isCont b1 then some ((b0 - 0xC0) * 0x40 + (b1 - 0x80), l1) else none
    | [] => none
  else if b0 < 0xF0 then
    match l with
    | b1 :: b2 :: l2 =>
      if isCont b1 ∧ isCont b2 ∧ ¬(b0 = 0xE0 ∧ b1 < 0xA0) ∧ ¬(b0 = 0xED ∧ 0xA0 ≤ b1) then
        some ((b0 - 0xE0) * 0x1000 + (b1 - 0x80) * 0x40 + (b2 - 0x80), l2)
      else none
    | _ => none
  else if b0 < 0xF5 then
    match l with
    | b1 :: b2 :: b3 :: l3 =>
      if isCont b1 ∧ isCont b2 ∧ isCont b3 ∧ ¬(b0 = 0xF0 ∧ b1 < 0x90) ∧ ¬(b0 = 0xF4 ∧ 0x90 ≤ b1) then
        some ((b0 - 0xF0) * 0x40000 + (b1 - 0x80) * 0x1000 + (b2 - 0x80) * 0x40 + (b3 - 0x80), l3)
      else none
    | _ => none
  else none

theorem utf8DecodeStep_length {b0 : Nat} {l l' : List Nat} {n : Nat}
    (h : utf8DecodeStep b0 l = some (n, l')) : l'.length ≤ l.length := by
  unfold utf8DecodeStep at h
  split_ifs at h
  · cases h; exact Nat.le_refl _
  all_goals (try (revert h; split <;> intro h <;> (try split_ifs at h) <;>
    (try cases h) <;> simp_all <;> omega))

/-- Fuel-driven recursion for strict UTF-8 decoding: the fuel bounds the
number of decoding steps, so the recursion is structural and the function
reduces in the kernel.  `utf8Decode` supplies `l.length` as fuel, which is
always sufficient. -/
def utf8DecodeFuel : Nat → List Nat → Option (List Char)
  | _, [] => some []
  | 0, _ :: _ => none
  | fuel + 1, b0 :: l =>
    match utf8DecodeStep b0 l with
    | some (n, l') => (utf8DecodeFuel fuel l').map (fun t => Char.ofNat n :: t)
    | none => none

/-- Strict UTF-8 decoding of a byte list, modelling Python's
`bytes.decode()` with the default strict error handling. -/
def utf8Decode (l : List Nat) : Option (List Char) :=
  utf8DecodeFuel l.length l

/-- Any fuel of at least the list length gives the same decoding result. -/
theorem utf8DecodeFuel_sufficient : ∀ (fuel fuel2 : Nat) (l : List Nat),
    l.length ≤ fuel → l.length ≤ fuel2 → utf8DecodeFuel fuel l = utf8DecodeFuel fuel2 l := by
  intro fuel
  induction fuel with
  | zero =>
    intro fuel2 l h1 _
    match l with
    | [] =>
      cases fuel2 <;> rfl
    | _ :: _ => simp at h1
  | succ f ih =>
    intro fuel2 l h1 h2
    match l with
    | [] => cases fuel2 <;> rfl
    | b0 :: l =>
      match fuel2 with
      | 0 => simp at h2
      | f2 + 1 =>
        show (match utf8DecodeStep b0 l with
          | some (n, l') => (utf8DecodeFuel f l').map (fun t => Char.ofNat n :: t)
          | none => none) =
          (match utf8DecodeStep b0 l with
          | some (n, l') => (utf8DecodeFuel f2 l').map (fun t => Char.ofNat n :: t)
          | none => none)
        cases hstep : utf8DecodeStep b0 l with
        | some p =>
          rcases p with ⟨n, l'⟩
          have hlen := utf8DecodeStep_length hstep
          simp only
          rw [ih f2 l' (by simp at h1; omega) (by simp at h2; omega)]
        | none => rfl

/-- UTF-8 encoding of one character. -/
def utf8EncodeChar (c : Char) : List Nat :=
  let n := c.toNat
  if n < 0x80 then [n]
  else if n < 0x800 then [0xC0 + n / 0x40, 0x80 + n % 0x40]
  else if n < 0x10000 then [0xE0 + n / 0x1000, 0x80 + n / 0x40 % 0x40, 0x80 + n % 0x40]
  else [0xF0 + n / 0x40000, 0x80 + n / 0x1000 % 0x40, 0x80 + n / 0x40 % 0x40, 0x80 + n % 0x40]

/-- UTF-8 encoding of a character list, modelling Python's `str.encode()`. -/
def utf8Encode : List Char → List Nat
  | [] => []
  | c :: t => utf8EncodeChar c ++ utf8Encode t

theorem utf8Encode_append (s t : List Char) :
    utf8Encode (s ++ t) = utf8Encode s ++ utf8Encode t := by
  induction s with
  | nil => rfl
  | cons c s ih => simp [utf8Encode, ih]

theorem toNat_ofNat_valid {n : Nat} (h : n.isValidChar) : (Char.ofNat n).toNat = n := by
  simp [Char.ofNat, h]
  rfl

/-- A successful decoding step yields a valid code point whose UTF-8
encoding is exactly the bytes consumed. -/
theorem utf8DecodeStep_sound {b0 : Nat} {l l' : List Nat} {n : Nat}
    (h : utf8DecodeStep b0 l = some (n, l')) :
    n.isValidChar ∧ utf8EncodeChar (Char.ofNat n) ++ l' = b0 :: l := by
  unfold utf8DecodeStep at h
  by_cases h1 : b0 < 0x80
  · rw [if_pos h1] at h
    cases h
    have hv : Nat.isValidChar b0 := Or.inl (by omega)
    refine ⟨hv, ?_⟩
    simp only [utf8EncodeChar, toNat_ofNat_valid hv]
    rw [if_pos h1]
    rfl
  rw [if_neg h1] at h
  by_cases h2 : b0 < 0xC2
  · rw [if_pos h2] at h; exact absurd h (by simp)
  rw [if_neg h2] at h
  by_cases h3 : b0 < 0xE0
  · rw [if_pos h3] at h
    match l with
    | [] => exact absurd h (by simp)
    | b1 :: l1 =>
      simp only at h
      by_cases hc : isCont b1 = true
      · rw [if_pos hc] at h
        cases h
        simp only [isCont, Bool.and_eq_true, decide_eq_true_eq] at hc
        have hv : Nat.isValidChar ((b0 - 0xC0) * 0x40 + (b1 - 0x80)) := Or.inl (by omega)
        refine ⟨hv, ?_⟩
        simp only [utf8EncodeChar, toNat_ofNat_valid hv]
        rw [if_neg (by omega), if_pos (by omega)]
        have e1 : 0xC0 + ((b0 - 0xC0) * 0x40 + (b1 - 0x80)) / 0x40 = b0 := by omega
        have e2 : 0x80 + ((b0 - 0xC0) * 0x40 + (b1 - 0x80)) % 0x40 = b1 := by omega
        rw [e1, e2]
        rfl
      · rw [if_neg hc] at h; exact absurd h (by simp)
  rw [if_neg h3] at h
  by_cases h4 : b0 < 0xF0
  · rw [if_pos h4] at h
    match l with
    | [] => exact absurd h (by simp)
    | [b1] => exact absurd h (by simp)
    | b1 :: b2 :: l2 =>
      simp only at h
      by_cases hc : isCont b1 = true ∧ isCont b2 = true ∧ ¬(b0 = 0xE0 ∧ b1 < 0xA0) ∧
          ¬(b0 = 0xED ∧ 0xA0 ≤ b1)
      · rw [if_pos hc] at h
        cases h
        obtain ⟨hc1, hc2, hc3, hc4⟩ := hc
        simp only [isCont, Bool.and_eq_true, decide_eq_true_eq] at hc1 hc2
        have hv : Nat.isValidChar ((b0 - 0xE0) * 0x1000 + (b1 - 0x80) * 0x40 + (b2 - 0x80)) := by
          rcases Nat.lt_or_ge b0 0xED with hlt | hge
          · exact Or.inl (by omega)
          · rcases Nat.eq_or_lt_of_le hge with heq | hgt
            · rcases Nat.lt_or_ge b1 0xA0 with hb | hb
              · exact Or.inl (by omega)
              · exact absurd ⟨heq.symm, hb⟩ hc4
            · exact Or.inr ⟨by omega, by omega⟩
        refine ⟨hv, ?_⟩
        have hov : ¬(b0 = 0xE0 ∧ b1 < 0xA0) := hc3
        simp only [utf8EncodeChar, toNat_ofNat_valid hv]
        rw [if_neg (by omega), if_neg (by omega), if_pos (by omega)]
        have e1 : 0xE0 + ((b0 - 0xE0) * 0x1000 + (b1 - 0x80) * 0x40 + (b2 - 0x80)) / 0x1000 = b0 := by
          omega
        have e2 : 0x80 + ((b0 - 0xE0) * 0x1000 + (b1 - 0x80) * 0x40 + (b2 - 0x80)) / 0x40 % 0x40
            = b1 := by omega
        have e3 : 0x80 + ((b0 - 0xE0) * 0x1000 + (b1 - 0x80) * 0x40 + (b2 - 0x80)) % 0x40 = b2 := by
          omega
        rw [e1, e2, e3]
        rfl
      · rw [if_neg hc] at h; exact absurd h (by simp)
  rw [if_neg h4] at h
  by_cases h5 : b0 < 0xF5
  · rw [if_pos h5] at h
    match l with
    | [] => exact absurd h (by simp)
    | [b1] => exact absurd h (by simp)
    | [b1, b2] => exact absurd h (by simp)
    | b1 :: b2 :: b3 :: l3 =>
      simp only at h
      by_cases hc : isCont b1 = true ∧ isCont b2 = true ∧ isCont b3 = true ∧
          ¬(b0 = 0xF0 ∧ b1 < 0x90) ∧ ¬(b0 = 0xF4 ∧ 0x90 ≤ b1)
      · rw [if_pos hc] at h
        cases h
        obtain ⟨hc1, hc2, hc3, hc4, hc5⟩ := hc
        simp only [isCont, Bool.and_eq_true, decide_eq_true_eq] at hc1 hc2 hc3
        have hv : Nat.isValidChar
            ((b0 - 0xF0) * 0x40000 + (b1 - 0x80) * 0x1000 + (b2 - 0x80) * 0x40 + (b3 - 0x80)) := by
          refine Or.inr ⟨by omega, ?_⟩
          rcases Nat.lt_or_ge b0 0xF4 with hlt | hge
          · omega
          · have hb0 : b0 = 0xF4 := by omega
            have hb1 : b1 < 0x90 := by
              by_contra hb
              exact hc5 ⟨hb0, by omega⟩
            omega
        refine ⟨hv, ?_⟩
        simp only [utf8EncodeChar, toNat_ofNat_valid hv]
        rw [if_neg (by omega), if_neg (by omega), if_neg (by omega)]
        have e1 : 0xF0 + ((b0 - 0xF0) * 0x40000 + (b1 - 0x80) * 0x1000 + (b2 - 0x80) * 0x40 +
            (b3 - 0x80)) / 0x40000 = b0 := by omega
        have e2 : 0x80 + ((b0 - 0xF0) * 0x40000 + (b1 - 0x80) * 0x1000 + (b2 - 0x80) * 0x40 +
            (b3 - 0x80)) / 0x1000 % 0x40 = b1 := by omega
        have e3 : 0x80 + ((b0 - 0xF0) * 0x40000 + (b1 - 0x80) * 0x1000 + (b2 - 0x80) * 0x40 +
            (b3 - 0x80)) / 0x40 % 0x40 = b2 := by omega
        have e4 : 0x80 + ((b0 - 0xF0) * 0x40000 + (b1 - 0x80) * 0x1000 + (b2 - 0x80) * 0x40 +
            (b3 - 0x80)) % 0x40 = b3 := by omega
        rw [e1, e2, e3, e4]
        rfl
      · rw [if_neg hc] at h; exact absurd h (by simp)
  · rw [if_neg h5] at h; exact absurd h (by simp)

theorem utf8Decode_nil : utf8Decode [] = some [] := rfl

theorem utf8Decode_cons_some {b0 n : Nat} {l l' : List Nat}
    (hstep : utf8DecodeStep b0 l = some (n, l')) :
    utf8Decode (b0 :: l) = (utf8Decode l').map (fun t => Char.ofNat n :: t) := by
  show utf8DecodeFuel (l.length + 1) (b0 :: l) = _
  show (match utf8DecodeStep b0 l with
    | some (n, l') => (utf8DecodeFuel l.length l').map (fun t => Char.ofNat n :: t)
    | none => none) = _
  rw [hstep]
  simp only
  rw [utf8DecodeFuel_sufficient l.length l'.length l' (utf8DecodeStep_length hstep)
    (Nat.le_refl _)]
  rfl

theorem utf8Decode_cons_none {b0 : Nat} {l : List Nat}
    (hstep : utf8DecodeStep b0 l = none) :
    utf8Decode (b0 :: l) = none := by
  show utf8DecodeFuel (l.length + 1) (b0 :: l) = _
  show (match utf8DecodeStep b0 l with
    | some (n, l') => (utf8DecodeFuel l.length l').map (fun t => Char.ofNat n :: t)
    | none => none) = _
  rw [hstep]

/-- Decoding over any fuel is a left inverse of encoding. -/
theorem utf8Encode_utf8DecodeFuel : ∀ (fuel : Nat) (l : List Nat) (t : List Char),
    utf8DecodeFuel fuel l = some t → utf8Encode t = l := by
  intro fuel
  induction fuel with
  | zero =>
    intro l t h
    match l with
    | [] =>
      cases h
      rfl
    | _ :: _ => exact absurd h (by simp [utf8DecodeFuel])
  | succ f ih =>
    intro l t h
    match l with
    | [] =>
      cases h
      rfl
    | b0 :: l =>
      have h' : (match utf8DecodeStep b0 l with
        | some (n, l') => (utf8DecodeFuel f l').map (fun t => Char.ofNat n :: t)
        | none => none) = some t := h
      cases hstep : utf8DecodeStep b0 l with
      | some p =>
        rcases p with ⟨n, l'⟩
        rw [hstep] at h'
        simp only at h'
        rcases Option.map_eq_some'.mp h' with ⟨t', ht', rfl⟩
        obtain ⟨hv, hbytes⟩ := utf8DecodeStep_sound hstep
        calc utf8Encode (Char.ofNat n :: t')
            = utf8EncodeChar (Char.ofNat n) ++ utf8Encode t' := rfl
          _ = utf8EncodeChar (Char.ofNat n) ++ l' := by rw [ih l' t' ht']
          _ = b0 :: l := hbytes
      | none =>
        rw [hstep] at h'
        cases h'

/-- Decoding is a left inverse of encoding: a successfully decoded byte
list is recovered exactly by re-encoding the decoded text. -/
theorem utf8Encode_utf8Decode (l : List Nat) (t : List Char) (h : utf8Decode l = some t) :
    utf8Encode t = l :=
  utf8Encode_utf8DecodeFuel l.length l t h

/-- The UTF-8 encoding of any character decodes back in one step,
leaving the rest of the byte stream untouched. -/
theorem utf8DecodeStep_encodeChar (c : Char) (r : List Nat) :
    ∃ b0 bs, utf8EncodeChar c = b0 :: bs ∧ utf8DecodeStep b0 (bs ++ r) = some (c.toNat, r) := by
  have hv : Nat.isValidChar c.toNat := c.valid
  unfold Nat.isValidChar at hv
  set n := c.toNat with hn
  by_cases h1 : n < 0x80
  · refine ⟨n, [], ?_, ?_⟩
    · simp only [utf8EncodeChar]
      rw [if_pos h1]
    · simp only [List.nil_append, utf8DecodeStep]
      rw [if_pos h1]
  · by_cases h2 : n < 0x800
    · refine ⟨0xC0 + n / 0x40, [0x80 + n % 0x40], ?_, ?_⟩
      · simp only [utf8EncodeChar]
        rw [if_neg h1, if_pos h2]
      · simp only [List.cons_append, List.nil_append, utf8DecodeStep]
        rw [if_neg (by omega), if_neg (by omega), if_pos (by omega)]
        rw [if_pos (by simp only [isCont, Bool.and_eq_true, decide_eq_true_eq]; omega)]
        have e : (0xC0 + n / 0x40 - 0xC0) * 0x40 + (0x80 + n % 0x40 - 0x80) = n := by omega
        rw [e]
    · by_cases h3 : n < 0x10000
      · refine ⟨0xE0 + n / 0x1000, [0x80 + n / 0x40 % 0x40, 0x80 + n % 0x40], ?_, ?_⟩
        · simp only [utf8EncodeChar]
          rw [if_neg h1, if_neg h2, if_pos h3]
        · simp only [List.cons_append, List.nil_append, utf8DecodeStep]
          rw [if_neg (by omega), if_neg (by omega), if_neg (by omega), if_pos (by omega)]
          rw [if_pos ?hcond]
          case hcond =>
            refine ⟨by simp only [isCont, Bool.and_eq_true, decide_eq_true_eq]; omega,
              by simp only [isCont, Bool.and_eq_true, decide_eq_true_eq]; omega, ?_, ?_⟩
            · rcases hv with hv | hv <;> omega
            · rcases hv with hv | hv <;> omega
          have e : (0xE0 + n / 0x1000 - 0xE0) * 0x1000 + (0x80 + n / 0x40 % 0x40 - 0x80) * 0x40 +
              (0x80 + n % 0x40 - 0x80) = n := by omega
          rw [e]
      · refine ⟨0xF0 + n / 0x40000,
          [0x80 + n / 0x1000 % 0x40, 0x80 + n / 0x40 % 0x40, 0x80 + n % 0x40], ?_, ?_⟩
        · simp only [utf8EncodeChar]
          rw [if_neg h1, if_neg h2, if_neg h3]
        · have hub : n < 0x110000 := by rcases hv with hv | hv <;> omega
          simp only [List.cons_append, List.nil_append, utf8DecodeStep]
          rw [if_neg (by omega), if_neg (by omega), if_neg (by omega), if_neg (by omega),
            if_pos (by omega)]
          rw [if_pos ?hcond4]
          case hcond4 =>
            refine ⟨by simp only [isCont, Bool.and_eq_true, decide_eq_true_eq]; omega,
              by simp only [isCont, Bool.and_eq_true, decide_eq_true_eq]; omega,
              by simp only [isCont, Bool.and_eq_true, decide_eq_true_eq]; omega, ?_, ?_⟩
            · omega
            · omega
          have e : (0xF0 + n / 0x40000 - 0xF0) * 0x40000 + (0x80 + n / 0x1000 % 0x40 - 0x80) *
              0x1000 + (0x80 + n / 0x40 % 0x40 - 0x80) * 0x40 + (0x80 + n % 0x40 - 0x80) = n := by
            omega
          rw [e]

/-- Decoding is a right inverse of encoding: encoded text always decodes
back to itself. -/
theorem utf8Decode_utf8Encode : ∀ t : List Char, utf8Decode (utf8Encode t) = some t := by
  intro t
  induction t with
  | nil => exact utf8Decode_nil
  | cons c t ih =>
    obtain ⟨b0, bs, henc, hstep⟩ := utf8DecodeStep_encodeChar c (utf8Encode t)
    have he : utf8Encode (c :: t) = b0 :: (bs ++ utf8Encode t) := by
      show utf8EncodeChar c ++ utf8Encode t = _
      rw [henc]
      rfl
    rw [he, utf8Decode_cons_some hstep, ih]
    simp [Char.ofNat_toNat]

/-! ### List helpers -/

/-- The slice of a character list between two character offsets, the
analogue of Python's `data[a:b]`. -/
def sliceL (t : List Char) (a b : Nat) : List Char :=
  (t.drop a).take (b - a)

theorem takeWhile_append_eq (p : Char → Bool) (x y : List Char) :
    (x ++ y).takeWhile p = x.takeWhile p ++ (if x.all p then y.takeWhile p else []) := by
  induction x with
  | nil => simp
  | cons c x ih =>
    cases hpc : p c with
    | true =>
      rw [List.cons_append, List.takeWhile_cons_of_pos hpc, List.takeWhile_cons_of_pos hpc,
        ih, List.all_cons, hpc, Bool.true_and, List.cons_append]
    | false =>
      rw [List.cons_append, List.takeWhile_cons_of_neg (by simp [hpc]),
        List.takeWhile_cons_of_neg (by simp [hpc]), List.all_cons, hpc, Bool.false_and,
        if_neg (by simp)]
      rfl

theorem takeWhile_append_of_nil {p : Char → Bool} (x : List Char) {y : List Char}
    (h : y.takeWhile p = []) : (x ++ y).takeWhile p = x.takeWhile p := by
  rw [takeWhile_append_eq]
  split_ifs <;> simp [h]

theorem takeWhile_append_of_all {p : Char → Bool} {x : List Char} (y : List Char)
    (h : x.all p = true) : (x ++ y).takeWhile p = x ++ y.takeWhile p := by
  rw [takeWhile_append_eq, if_pos h, List.takeWhile_eq_self_iff.mpr (by simpa using h)]

theorem takeWhile_eq_nil_of_head {p q : Char → Bool} {d : List Char} (h0 : d ≠ [])
    (hall : d.all q = true) (himp : ∀ c, q c = true → p c = false) (z : List Char) :
    (d ++ z).takeWhile p = [] := by
  cases d with
  | nil => exact absurd rfl h0
  | cons c d' =>
    rw [List.cons_append]
    refine List.takeWhile_cons_of_neg ?_
    simp only [List.all_cons, Bool.and_eq_true] at hall
    simp [himp c hall.1]

theorem dropWhile_eq_drop_len (p : Char → Bool) : ∀ l : List Char,
    l.dropWhile p = l.drop (l.takeWhile p).length := by
  intro l
  induction l with
  | nil => rfl
  | cons c l ih =>
    by_cases h : p c <;> simp [List.dropWhile_cons, List.takeWhile_cons, h, ih]

theorem takeWhile_all (p : Char → Bool) (l : List Char) : (l.takeWhile p).all p = true := by
  rw [List.all_eq_true]
  intro c hc
  exact List.mem_takeWhile_imp hc

theorem takeWhile_length_lt {p : Char → Bool} {l : List Char} (h : l.all p = false) :
    (l.takeWhile p).length < l.length := by
  rcases Nat.lt_or_ge (l.takeWhile p).length l.length with h1 | h1
  · exact h1
  · exfalso
    have h2 : l.takeWhile p = l := (List.takeWhile_sublist p).eq_of_length_le h1
    have h3 : l.all p = true := by
      rw [List.all_eq_true]
      intro c hc
      rw [← h2] at hc
      exact List.mem_takeWhile_imp hc
    rw [h3] at h
    cases h

theorem slice_split {t : List Char} {a b : Nat} (h1 : a ≤ b) (h2 : b ≤ t.length) :
    t = t.take a ++ (sliceL t a b ++ t.drop b) := by
  have hd : t.drop b = (t.drop a).drop (b - a) := by
    rw [List.drop_drop]
    congr 1
    omega
  rw [sliceL, hd, List.take_append_drop, List.take_append_drop]

/-! ### The single-capture pattern `<ProjectVersion>\s*(\d+)\s*</ProjectVersion>` -/

/-- The opening literal of the single-capture pattern. -/
def pvOpen : List Char := "<ProjectVersion>".toList

/-- The closing literal of the single-capture pattern. -/
def pvClose : List Char := "</ProjectVersion>".toList

/-- Try to match the single-capture pattern at the head of `t`.  On
success returns the start and end offsets (relative to `t`) of the digit
capture group.  Greedy runs are exact for this pattern because the
whitespace class, the digit class and the literal boundaries are
pairwise incompatible, so the model coincides with backtracking regex
matching anchored at the head. -/
def matchPVAt (t : List Char) : Option (Nat × Nat) :=
  if pvOpen.isPrefixOf t then
    if (((t.drop pvOpen.length).dropWhile isWSChar).takeWhile isDigitChar).length = 0 then none
    else if pvClose.isPrefixOf
        ((((t.drop pvOpen.length).dropWhile isWSChar).dropWhile isDigitChar).dropWhile isWSChar) then
      some (pvOpen.length + ((t.drop pvOpen.length).takeWhile isWSChar).length,
        pvOpen.length + ((t.drop pvOpen.length).takeWhile isWSChar).length +
          (((t.drop pvOpen.length).dropWhile isWSChar).takeWhile isDigitChar).length)
    else none
  else none

/-- Scan for the leftmost match of the single-capture pattern, as
`re.search` does; `pos` is the absolute offset of the head of `t`. -/
def searchPVAux (t : List Char) (pos : Nat) : Option (Nat × Nat) :=
  match matchPVAt t with
  | some (s, e) => some (pos + s, pos + e)
  | none =>
    match t with
    | [] => none
    | _ :: rest => searchPVAux rest (pos + 1)

/-- Leftmost match of the single-capture pattern over the whole text:
the digit-group span of `re_projectversion.search(data)`. -/
def searchPV (t : List Char) : Option (Nat × Nat) :=
  searchPVAux t 0

theorem dropWhile_append_of_all {p : Char → Bool} {x y : List Char} (hx : x.all p = true)
    (hy : y.takeWhile p = []) : (x ++ y).dropWhile p = y := by
  rw [dropWhile_eq_drop_len, takeWhile_append_of_all y hx, hy, List.append_nil, List.drop_left]

theorem takeWhile_append_of_all_nil {p : Char → Bool} {x y : List Char} (hx : x.all p = true)
    (hy : y.takeWhile p = []) : (x ++ y).takeWhile p = x := by
  rw [takeWhile_append_of_all y hx, hy, List.append_nil]

theorem pvClose_cons : pvClose = '<' :: "/ProjectVersion>".toList := by decide

theorem takeWhile_pvClose_nil {p : Char → Bool} (hp : p '<' = false) (r : List Char) :
    (pvClose ++ r).takeWhile p = [] := by
  rw [pvClose_cons, List.cons_append]
  exact List.takeWhile_cons_of_neg (by simp [hp])

theorem takeWhile_dig_ws_close {c : List Char} (r : List Char) (hc : c.all isWSChar = true) :
    (c ++ (pvClose ++ r)).takeWhile isDigitChar = [] := by
  cases c with
  | nil =>
    rw [List.nil_append]
    exact takeWhile_pvClose_nil (by decide) r
  | cons e c' =>
    rw [List.cons_append]
    refine List.takeWhile_cons_of_neg ?_
    simp only [List.all_cons, Bool.and_eq_true] at hc
    intro hdig
    rw [isDigitChar_not_ws (by simpa using hdig)] at hc
    exact Bool.noConfusion hc.1

theorem matchPVAt_build {a d c : List Char} (r : List Char)
    (ha : a.all isWSChar = true) (hd : d.all isDigitChar = true) (hd0 : d ≠ [])
    (hc : c.all isWSChar = true) :
    matchPVAt (pvOpen ++ (a ++ (d ++ (c ++ (pvClose ++ r))))) =
      some (16 + a.length, 16 + a.length + d.length) := by
  have hdtail : (d ++ (c ++ (pvClose ++ r))).takeWhile isWSChar = [] :=
    takeWhile_eq_nil_of_head hd0 hd (fun _ h => isDigitChar_not_ws h) _
  have hctail : (c ++ (pvClose ++ r)).takeWhile isDigitChar = [] :=
    takeWhile_dig_ws_close r hc
  have hcw : (c ++ (pvClose ++ r)).takeWhile isWSChar = c :=
    takeWhile_append_of_all_nil hc (takeWhile_pvClose_nil (by decide) r)
  have e1 : (pvOpen ++ (a ++ (d ++ (c ++ (pvClose ++ r))))).drop pvOpen.length
      = a ++ (d ++ (c ++ (pvClose ++ r))) := List.drop_left _ _
  have e2 : (a ++ (d ++ (c ++ (pvClose ++ r)))).takeWhile isWSChar = a :=
    takeWhile_append_of_all_nil ha hdtail
  have e3 : (a ++ (d ++ (c ++ (pvClose ++ r)))).dropWhile isWSChar = d ++ (c ++ (pvClose ++ r)) :=
    dropWhile_append_of_all ha hdtail
  have e4 : (d ++ (c ++ (pvClose ++ r))).takeWhile isDigitChar = d :=
    takeWhile_append_of_all_nil hd hctail
  have e5 : (d ++ (c ++ (pvClose ++ r))).dropWhile isDigitChar = c ++ (pvClose ++ r) :=
    dropWhile_append_of_all hd hctail
  have e6 : (c ++ (pvClose ++ r)).dropWhile isWSChar = pvClose ++ r :=
    dropWhile_append_of_all hc (takeWhile_pvClose_nil (by decide) r)
  have hop : pvOpen.isPrefixOf (pvOpen ++ (a ++ (d ++ (c ++ (pvClose ++ r))))) = true := by
    rw [List.isPrefixOf_iff_prefix]
    exact List.prefix_append _ _
  have hcl : pvClose.isPrefixOf (pvClose ++ r) = true := by
    rw [List.isPrefixOf_iff_prefix]
    exact List.prefix_append _ _
  have hdlen : d.length ≠ 0 := by
    cases d with
    | nil => exact absurd rfl hd0
    | cons _ _ => simp
  unfold matchPVAt
  rw [if_pos hop, e1, e3, e4, if_neg hdlen, e5, e6, if_pos hcl, e2]
  have h16 : pvOpen.length = 16 := by decide
  rw [h16]

theorem matchPVAt_destruct {t : List Char} {s e : Nat} (h : matchPVAt t = some (s, e)) :
    ∃ a d c r, t = pvOpen ++ (a ++ (d ++ (c ++ (pvClose ++ r)))) ∧
      a.all isWSChar = true ∧ d.all isDigitChar = true ∧ d ≠ [] ∧ c.all isWSChar = true ∧
      s = 16 + a.length ∧ e = 16 + a.length + d.length := by
  unfold matchPVAt at h
  by_cases hop : pvOpen.isPrefixOf t = true
  case neg => rw [if_neg hop] at h; exact absurd h (by simp)
  rw [if_pos hop] at h
  by_cases hds : (((t.drop pvOpen.length).dropWhile isWSChar).takeWhile isDigitChar).length = 0
  case pos => rw [if_pos hds] at h; exact absurd h (by simp)
  rw [if_neg hds] at h
  by_cases hcl : pvClose.isPrefixOf
      ((((t.drop pvOpen.length).dropWhile isWSChar).dropWhile isDigitChar).dropWhile isWSChar) = true
  case neg => rw [if_neg hcl] at h; exact absurd h (by simp)
  rw [if_pos hcl] at h
  obtain ⟨rest, hrest⟩ : ∃ rest, pvOpen ++ rest = t := List.isPrefixOf_iff_prefix.mp hop
  have hdrop : t.drop pvOpen.length = rest := by rw [← hrest, List.drop_left]
  refine ⟨rest.takeWhile isWSChar,
    (rest.dropWhile isWSChar).takeWhile isDigitChar,
    ((rest.dropWhile isWSChar).dropWhile isDigitChar).takeWhile isWSChar,
    (((rest.dropWhile isWSChar).dropWhile isDigitChar).dropWhile isWSChar).drop pvClose.length,
    ?_, takeWhile_all _ _, takeWhile_all _ _, ?_, takeWhile_all _ _, ?_, ?_⟩
  · obtain ⟨r4, hr4⟩ : ∃ r4, pvClose ++ r4 =
        (((t.drop pvOpen.length).dropWhile isWSChar).dropWhile isDigitChar).dropWhile isWSChar :=
      List.isPrefixOf_iff_prefix.mp hcl
    rw [hdrop] at hr4
    have h4 : (((rest.dropWhile isWSChar).dropWhile isDigitChar).dropWhile isWSChar).drop
        pvClose.length = r4 := by rw [← hr4, List.drop_left]
    rw [h4, hr4, List.takeWhile_append_dropWhile, List.takeWhile_append_dropWhile,
      List.takeWhile_append_dropWhile, hrest]
  · rw [hdrop] at hds
    intro hnil
    rw [hnil] at hds
    exact hds rfl
  · rcases Option.some.inj h with hse
    have h1 : s = pvOpen.length + ((t.drop pvOpen.length).takeWhile isWSChar).length := by
      have := congrArg Prod.fst hse
      simpa using this.symm
    rw [h1, hdrop]
    congr 1
  · rcases Option.some.inj h with hse
    have h2 : e = pvOpen.length + ((t.drop pvOpen.length).takeWhile isWSChar).length +
        (((t.drop pvOpen.length).dropWhile isWSChar).takeWhile isDigitChar).length := by
      have := congrArg Prod.snd hse
      simpa using this.symm
    rw [h2, hdrop]
    have : pvOpen.length = 16 := by decide
    rw [this]

theorem dropWhile_append_of_nil {p : Char → Bool} (x : List Char) {y : List Char}
    (hy : y.takeWhile p = []) : (x ++ y).dropWhile p = x.dropWhile p ++ y := by
  rw [dropWhile_eq_drop_len, takeWhile_append_of_nil x hy,
    List.drop_append_of_le_length ((List.takeWhile_sublist p).length_le),
    dropWhile_eq_drop_len]

theorem dropWhile_append_of_not_all {p : Char → Bool} {x : List Char} (y : List Char)
    (h : x.all p = false) : (x ++ y).dropWhile p = x.dropWhile p ++ y := by
  rw [dropWhile_eq_drop_len, takeWhile_append_eq, h, if_neg (by simp), List.append_nil,
    List.drop_append_of_le_length ((List.takeWhile_sublist p).length_le),
    dropWhile_eq_drop_len]

/-- A digit-free literal that is a prefix of `x ++ (d ++ r)` with `d` a
nonempty digit run cannot reach into `d`: it fits inside `x`. -/
theorem noDig_prefix_le : ∀ {lit x d r : List Char},
    lit.all (fun c => !(isDigitChar c)) = true → d ≠ [] → d.all isDigitChar = true →
    lit.isPrefixOf (x ++ (d ++ r)) = true → lit.length ≤ x.length := by
  intro lit
  induction lit with
  | nil => intro x d r _ _ _ _; simp
  | cons c lit ih =>
    intro x d r hlit hd0 hd h
    cases x with
    | nil =>
      exfalso
      cases d with
      | nil => exact hd0 rfl
      | cons e d' =>
        rw [List.nil_append, List.cons_append] at h
        have hch : (c == e) = true := by
          have : (c == e && lit.isPrefixOf (d' ++ r)) = true := h
          exact (Bool.and_eq_true _ _).mp this |>.1
        have hce : c = e := by simpa using hch
        simp only [List.all_cons, Bool.and_eq_true] at hlit hd
        rw [hce] at hlit
        rw [hd.1] at hlit
        exact Bool.noConfusion hlit.1
    | cons a x' =>
      rw [List.cons_append] at h
      have h2 : (c == a && lit.isPrefixOf (x' ++ (d ++ r))) = true := h
      have := ((Bool.and_eq_true _ _).mp h2).2
      simp only [List.all_cons, Bool.and_eq_true] at hlit
      have hle := ih hlit.2 hd0 hd this
      simp only [List.length_cons]
      omega

/-- Whether a literal is a prefix only depends on the first
`lit.length` characters. -/
theorem prefix_le_stable : ∀ {lit x : List Char} (y y' : List Char),
    lit.length ≤ x.length → lit.isPrefixOf (x ++ y) = lit.isPrefixOf (x ++ y') := by
  intro lit
  induction lit with
  | nil =>
    intro x y y' _
    rw [List.isPrefixOf_nil_left, List.isPrefixOf_nil_left]
  | cons c lit ih =>
    intro x y y' hle
    cases x with
    | nil => simp at hle
    | cons a x' =>
      rw [List.cons_append, List.cons_append]
      show (c == a && lit.isPrefixOf (x' ++ y)) = (c == a && lit.isPrefixOf (x' ++ y'))
      rw [ih y y' (by simpa using hle)]

/-- Replacing one nonempty digit run by another does not change whether a
digit-free literal is a prefix. -/
theorem isPrefixOf_digit_stable {lit x d d' r : List Char}
    (hlit : lit.all (fun c => !(isDigitChar c)) = true)
    (hd : d.all isDigitChar = true) (hd0 : d ≠ [])
    (hd' : d'.all isDigitChar = true) (hd0' : d' ≠ []) :
    lit.isPrefixOf (x ++ (d ++ r)) = lit.isPrefixOf (x ++ (d' ++ r)) := by
  by_cases hL : lit.isPrefixOf (x ++ (d ++ r)) = true
  · exact prefix_le_stable _ _ (noDig_prefix_le hlit hd0 hd hL)
  · by_cases hR : lit.isPrefixOf (x ++ (d' ++ r)) = true
    · exact prefix_le_stable _ _ (noDig_prefix_le hlit hd0' hd' hR)
    · rw [Bool.not_eq_true] at hL hR
      rw [hL, hR]

/-- Replacing one nonempty digit run by another (the rest of the text not
starting with a digit) does not change whether the single-capture pattern
matches at the head of the text. -/
theorem matchPVAt_isSome_stable {x d d' r : List Char}
    (hd : d.all isDigitChar = true) (hd0 : d ≠ [])
    (hd' : d'.all isDigitChar = true) (hd0' : d' ≠ [])
    (hr : r.takeWhile isDigitChar = []) :
    (matchPVAt (x ++ (d ++ r))).isSome = (matchPVAt (x ++ (d' ++ r))).isSome := by
  have hpv : pvOpen.all (fun c => !(isDigitChar c)) = true := by decide
  have hpc : pvClose.all (fun c => !(isDigitChar c)) = true := by decide
  have hdws : (d ++ r).takeWhile isWSChar = [] :=
    takeWhile_eq_nil_of_head hd0 hd (fun _ h => isDigitChar_not_ws h) _
  have hdws' : (d' ++ r).takeWhile isWSChar = [] :=
    takeWhile_eq_nil_of_head hd0' hd' (fun _ h => isDigitChar_not_ws h) _
  have hop : pvOpen.isPrefixOf (x ++ (d ++ r)) = pvOpen.isPrefixOf (x ++ (d' ++ r)) :=
    isPrefixOf_digit_stable hpv hd hd0 hd' hd0'
  unfold matchPVAt
  by_cases h1 : pvOpen.isPrefixOf (x ++ (d ++ r)) = true
  case neg =>
    have h1' : ¬pvOpen.isPrefixOf (x ++ (d' ++ r)) = true := by rw [← hop]; exact h1
    rw [if_neg h1, if_neg h1']
  have h1' : pvOpen.isPrefixOf (x ++ (d' ++ r)) = true := by rw [← hop]; exact h1
  rw [if_pos h1, if_pos h1']
  have hle : pvOpen.length ≤ x.length := noDig_prefix_le hpv hd0 hd h1
  rw [List.drop_append_of_le_length hle, List.drop_append_of_le_length hle]
  rw [dropWhile_append_of_nil _ hdws, dropWhile_append_of_nil _ hdws']
  by_cases hall : (x.drop pvOpen.length).dropWhile isWSChar |>.all isDigitChar
  · have e1 : (((x.drop pvOpen.length).dropWhile isWSChar) ++ (d ++ r)).takeWhile isDigitChar
        = ((x.drop pvOpen.length).dropWhile isWSChar) ++ d := by
      rw [takeWhile_append_eq, if_pos hall,
        List.takeWhile_eq_self_iff.mpr (by simpa using hall),
        takeWhile_append_of_all_nil hd hr]
    have e1' : (((x.drop pvOpen.length).dropWhile isWSChar) ++ (d' ++ r)).takeWhile isDigitChar
        = ((x.drop pvOpen.length).dropWhile isWSChar) ++ d' := by
      rw [takeWhile_append_eq, if_pos hall,
        List.takeWhile_eq_self_iff.mpr (by simpa using hall),
        takeWhile_append_of_all_nil hd' hr]
    have hlen : ¬((((x.drop pvOpen.length).dropWhile isWSChar) ++ d).length = 0) := by
      cases d with
      | nil => exact absurd rfl hd0
      | cons _ _ => simp
    have hlen' : ¬((((x.drop pvOpen.length).dropWhile isWSChar) ++ d').length = 0) := by
      cases d' with
      | nil => exact absurd rfl hd0'
      | cons _ _ => simp
    have e2 : (((x.drop pvOpen.length).dropWhile isWSChar) ++ (d ++ r)).dropWhile isDigitChar
        = r := by
      rw [dropWhile_eq_drop_len, e1, List.length_append, ← List.append_assoc]
      rw [show (((x.drop pvOpen.length).dropWhile isWSChar).length + d.length)
          = (((x.drop pvOpen.length).dropWhile isWSChar) ++ d).length by simp]
      exact List.drop_left _ _
    have e2' : (((x.drop pvOpen.length).dropWhile isWSChar) ++ (d' ++ r)).dropWhile isDigitChar
        = r := by
      rw [dropWhile_eq_drop_len, e1', List.length_append, ← List.append_assoc]
      rw [show (((x.drop pvOpen.length).dropWhile isWSChar).length + d'.length)
          = (((x.drop pvOpen.length).dropWhile isWSChar) ++ d').length by simp]
      exact List.drop_left _ _
    rw [e1, e1', e2, e2', if_neg hlen, if_neg hlen']
    by_cases hcl : pvClose.isPrefixOf (r.dropWhile isWSChar) = true
    · rw [if_pos hcl, if_pos hcl]
      rfl
    · rw [if_neg hcl, if_neg hcl]
  · rw [Bool.not_eq_true] at hall
    have e1 : (((x.drop pvOpen.length).dropWhile isWSChar) ++ (d ++ r)).takeWhile isDigitChar
        = ((x.drop pvOpen.length).dropWhile isWSChar).takeWhile isDigitChar := by
      rw [takeWhile_append_eq, hall, if_neg (by simp), List.append_nil]
    have e1' : (((x.drop pvOpen.length).dropWhile isWSChar) ++ (d' ++ r)).takeWhile isDigitChar
        = ((x.drop pvOpen.length).dropWhile isWSChar).takeWhile isDigitChar := by
      rw [takeWhile_append_eq, hall, if_neg (by simp), List.append_nil]
    rw [e1, e1']
    by_cases hz : (((x.drop pvOpen.length).dropWhile isWSChar).takeWhile isDigitChar).length = 0
    · rw [if_pos hz, if_pos hz]
    · rw [if_neg hz, if_neg hz]
      rw [dropWhile_append_of_not_all _ hall, dropWhile_append_of_not_all _ hall]
      rw [dropWhile_append_of_nil _ hdws, dropWhile_append_of_nil _ hdws']
      have hcl_eq : pvClose.isPrefixOf
          ((((x.drop pvOpen.length).dropWhile isWSChar).dropWhile isDigitChar).dropWhile isWSChar
            ++ (d ++ r))
          = pvClose.isPrefixOf
          ((((x.drop pvOpen.length).dropWhile isWSChar).dropWhile isDigitChar).dropWhile isWSChar
            ++ (d' ++ r)) :=
        isPrefixOf_digit_stable hpc hd hd0 hd' hd0'
      by_cases hcl : pvClose.isPrefixOf
          ((((x.drop pvOpen.length).dropWhile isWSChar).dropWhile isDigitChar).dropWhile isWSChar
            ++ (d ++ r)) = true
      · have hcl' : pvClose.isPrefixOf
            ((((x.drop pvOpen.length).dropWhile isWSChar).dropWhile isDigitChar).dropWhile isWSChar
              ++ (d' ++ r)) = true := by rw [← hcl_eq]; exact hcl
        rw [if_pos hcl, if_pos hcl']
        rfl
      · have hcl' : ¬pvClose.isPrefixOf
            ((((x.drop pvOpen.length).dropWhile isWSChar).dropWhile isDigitChar).dropWhile isWSChar
              ++ (d' ++ r)) = true := by rw [← hcl_eq]; exact hcl
        rw [if_neg hcl, if_neg hcl']

theorem matchPVAt_nil : matchPVAt [] = none := by decide

/-- Destruction of a successful scan: some position `k` carries the match,
and every earlier position fails. -/
theorem searchPVAux_some : ∀ (t : List Char) (pos gs ge : Nat),
    searchPVAux t pos = some (gs, ge) →
    ∃ k s e, (∀ q, q < k → matchPVAt (t.drop q) = none) ∧
      matchPVAt (t.drop k) = some (s, e) ∧ gs = pos + k + s ∧ ge = pos + k + e := by
  intro t
  induction t with
  | nil =>
    intro pos gs ge h
    rw [searchPVAux, matchPVAt_nil] at h
    exact absurd h (by simp)
  | cons c t ih =>
    intro pos gs ge h
    rw [searchPVAux] at h
    cases hm : matchPVAt (c :: t) with
    | some se =>
      rcases se with ⟨s, e⟩
      rw [hm] at h
      rcases Option.some.inj h with hse
      refine ⟨0, s, e, by intro q hq; omega, by simpa using hm, ?_, ?_⟩
      · have := congrArg Prod.fst hse
        simp at this
        omega
      · have := congrArg Prod.snd hse
        simp at this
        omega
    | none =>
      rw [hm] at h
      simp only at h
      obtain ⟨k, s, e, hnone, hsome, hgs, hge⟩ := ih (pos + 1) gs ge h
      refine ⟨k + 1, s, e, ?_, by simpa using hsome, by omega, by omega⟩
      intro q hq
      cases q with
      | zero => simpa using hm
      | succ q' =>
        have : q' < k := by omega
        simpa using hnone q' this

/-- Construction of a scan result from a match at position `k` preceded
only by failing positions. -/
theorem searchPVAux_build : ∀ (t : List Char) (pos k s e : Nat),
    (∀ q, q < k → matchPVAt (t.drop q) = none) →
    matchPVAt (t.drop k) = some (s, e) →
    searchPVAux t pos = some (pos + k + s, pos + k + e) := by
  intro t
  induction t with
  | nil =>
    intro pos k s e _ hsome
    rw [List.drop_nil, matchPVAt_nil] at hsome
    exact absurd hsome (by simp)
  | cons c t ih =>
    intro pos k s e hnone hsome
    rw [searchPVAux]
    cases k with
    | zero =>
      rw [List.drop_zero] at hsome
      rw [hsome]
      simp only
      rw [Nat.add_zero]
    | succ k' =>
      have h0 : matchPVAt (c :: t) = none := by simpa using hnone 0 (by omega)
      rw [h0]
      simp only
      have hall : ∀ q, q < k' → matchPVAt (t.drop q) = none := by
        intro q hq
        simpa using hnone (q + 1) (by omega)
      have := ih (pos + 1) k' s e hall (by simpa using hsome)
      rw [this]
      have e1 : pos + 1 + k' + s = pos + (k' + 1) + s := by omega
      have e2 : pos + 1 + k' + e = pos + (k' + 1) + e := by omega
      rw [e1, e2]

/-- Full structural description of a successful leftmost search: the text
splits at some position `k` into scanned prefix + pattern occurrence, the
group span lies over the digit run `d`, and no earlier position matches. -/
theorem searchPV_decomp {t : List Char} {gs ge : Nat} (h : searchPV t = some (gs, ge)) :
    ∃ k a d c r, (∀ q, q < k → matchPVAt (t.drop q) = none) ∧
      k ≤ t.length ∧
      t.drop k = pvOpen ++ (a ++ (d ++ (c ++ (pvClose ++ r)))) ∧
      a.all isWSChar = true ∧ d.all isDigitChar = true ∧ d ≠ [] ∧ c.all isWSChar = true ∧
      gs = k + (16 + a.length) ∧ ge = gs + d.length := by
  obtain ⟨k, s, e, hnone, hsome, hgs, hge⟩ := searchPVAux_some t 0 gs ge h
  obtain ⟨a, d, c, r, hsplit, ha, hd, hd0, hc, hs, he⟩ := matchPVAt_destruct hsome
  have hk : k ≤ t.length := by
    by_contra hk
    rw [List.drop_eq_nil_of_le (by omega)] at hsplit
    have : pvOpen = [] := by
      cases hpv : pvOpen with
      | nil => rfl
      | cons p ps =>
        rw [hpv] at hsplit
        exact absurd hsplit.symm (by simp)
    exact absurd this (by decide)
  exact ⟨k, a, d, c, r, hnone, hk, hsplit, ha, hd, hd0, hc, by omega, by omega⟩

/-- First-match stability: replacing the captured digit run of the
leftmost match by another nonempty digit run leaves the leftmost match in
place; the new capture group is exactly the replacement. -/
theorem searchPV_stable {t : List Char} {gs ge : Nat} {v : List Char}
    (h : searchPV t = some (gs, ge)) (hv : v.all isDigitChar = true) (hv0 : v ≠ []) :
    searchPV (t.take gs ++ (v ++ t.drop ge)) = some (gs, gs + v.length) := by
  obtain ⟨k, a, d, c, r, hnone, hk, hsplit, ha, hd, hd0, hc, hgs, hge⟩ := searchPV_decomp h
  have h16 : pvOpen.length = 16 := by decide
  have h17 : pvClose.length = 17 := by decide
  have hlen : t.length - k = 33 + a.length + d.length + c.length + r.length := by
    have hcong := congrArg List.length hsplit
    simp only [List.length_drop, List.length_append, h16, h17] at hcong
    omega
  have hgele : ge ≤ t.length := by omega
  have hgsle : gs ≤ t.length := by omega
  have htakegs : (t.take gs).length = gs := by
    simp [List.length_take]
    omega
  have htakek : (t.take k).length = k := by
    simp [List.length_take]
    omega
  -- the text after the digit group
  have hdropge : t.drop ge = c ++ (pvClose ++ r) := by
    have e0 : ge = k + (16 + a.length + d.length) := by omega
    rw [e0, ← List.drop_drop, hsplit]
    have eassoc : pvOpen ++ (a ++ (d ++ (c ++ (pvClose ++ r))))
        = ((pvOpen ++ a) ++ d) ++ (c ++ (pvClose ++ r)) := by
      simp [List.append_assoc]
    rw [eassoc]
    exact List.drop_left' (by simp [h16]; omega)
  -- the text after the scanned prefix and opening part
  have hdropgs : t.drop gs = d ++ (c ++ (pvClose ++ r)) := by
    have e0 : gs = k + (16 + a.length) := by omega
    rw [e0, ← List.drop_drop, hsplit]
    have eassoc : pvOpen ++ (a ++ (d ++ (c ++ (pvClose ++ r))))
        = (pvOpen ++ a) ++ (d ++ (c ++ (pvClose ++ r))) := by
      simp [List.append_assoc]
    rw [eassoc]
    exact List.drop_left' (by simp [h16])
  -- the text before the digit group
  have htakegseq : t.take gs = t.take k ++ (pvOpen ++ a) := by
    conv_lhs => rw [← List.take_append_drop k t]
    have e0 : gs = (t.take k).length + (16 + a.length) := by omega
    rw [e0, List.take_append, hsplit]
    congr 1
    have eassoc : pvOpen ++ (a ++ (d ++ (c ++ (pvClose ++ r))))
        = (pvOpen ++ a) ++ (d ++ (c ++ (pvClose ++ r))) := by
      simp [List.append_assoc]
    rw [eassoc]
    exact List.take_left' (by simp [h16])
  have hr0dig : (c ++ (pvClose ++ r)).takeWhile isDigitChar = [] := takeWhile_dig_ws_close r hc
  -- the patched text and its suffix at the match position
  have hndropk : (t.take gs ++ (v ++ t.drop ge)).drop k
      = pvOpen ++ (a ++ (v ++ (c ++ (pvClose ++ r)))) := by
    rw [htakegseq, hdropge]
    have eassoc : (t.take k ++ (pvOpen ++ a)) ++ (v ++ (c ++ (pvClose ++ r)))
        = t.take k ++ (pvOpen ++ (a ++ (v ++ (c ++ (pvClose ++ r))))) := by
      simp [List.append_assoc]
    rw [eassoc]
    exact List.drop_left' htakek
  have hmatchk : matchPVAt ((t.take gs ++ (v ++ t.drop ge)).drop k)
      = some (16 + a.length, 16 + a.length + v.length) := by
    rw [hndropk]
    exact matchPVAt_build r ha hv hv0 hc
  -- no earlier position matches in the patched text either
  have hnonone : ∀ q, q < k → matchPVAt ((t.take gs ++ (v ++ t.drop ge)).drop q) = none := by
    intro q hq
    have hqgs : q ≤ gs := by omega
    have holdsplit : t.drop q = (t.drop q).take (gs - q) ++ (d ++ (c ++ (pvClose ++ r))) := by
      conv_lhs => rw [← List.take_append_drop (gs - q) (t.drop q)]
      congr 1
      rw [List.drop_drop]
      have heq : q + (gs - q) = gs := by omega
      rw [heq, hdropgs]
    have hnsplit : (t.take gs ++ (v ++ t.drop ge)).drop q
        = (t.drop q).take (gs - q) ++ (v ++ (c ++ (pvClose ++ r))) := by
      rw [List.drop_append_of_le_length (by omega), List.drop_take, hdropge]
    have hstable := matchPVAt_isSome_stable (x := (t.drop q).take (gs - q))
      (r := c ++ (pvClose ++ r)) hd hd0 hv hv0 hr0dig
    rw [← holdsplit, ← hnsplit] at hstable
    rw [hnone q hq] at hstable
    simp only [Option.isSome_none] at hstable
    cases hx : matchPVAt ((t.take gs ++ (v ++ t.drop ge)).drop q) with
    | none => rfl
    | some val =>
      rw [hx] at hstable
      simp at hstable
  have := searchPVAux_build (t.take gs ++ (v ++ t.drop ge)) 0 k (16 + a.length)
    (16 + a.length + v.length) hnonone hmatchk
  rw [searchPV, this]
  have e1 : 0 + k + (16 + a.length) = gs := by omega
  have e2 : 0 + k + (16 + a.length + v.length) = gs + v.length := by omega
  rw [e1, e2]

/-! ### The dual-capture pattern
`<!--\s*DbAppVer="(?P<appver>[\d.]+)"\s+DbPrjVer="(?P<projver>[\d.]+)"\s*-->` -/

/-- The comment-opening literal of the dual-capture pattern. -/
def cvOpen : List Char := "<!--".toList

/-- The application-version attribute literal (opening quote included). -/
def cvApp : List Char := "DbAppVer=\"".toList

/-- The project-version attribute literal (opening quote included). -/
def cvPrj : List Char := "DbPrjVer=\"".toList

/-- The closing quote literal. -/
def cvQuote : List Char := ['"']

/-- The comment-closing literal of the dual-capture pattern. -/
def cvClose : List Char := "-->".toList

/-- Remaining text after the comment opener and the leading whitespace. -/
def cvU1 (t : List Char) : List Char := (t.drop cvOpen.length).dropWhile isWSChar

/-- Remaining text after the application-version attribute literal. -/
def cvU2 (t : List Char) : List Char := (cvU1 t).drop cvApp.length

/-- The appver capture group: the maximal `[\d.]` run. -/
def cvAV (t : List Char) : List Char := (cvU2 t).takeWhile isVerChar

/-- Remaining text after the appver capture group. -/
def cvU3 (t : List Char) : List Char := (cvU2 t).dropWhile isVerChar

/-- Remaining text after the appver closing quote. -/
def cvU4 (t : List Char) : List Char := (cvU3 t).drop 1

/-- The mandatory whitespace run between the two attributes. -/
def cvW2 (t : List Char) : List Char := (cvU4 t).takeWhile isWSChar

/-- Remaining text after the inter-attribute whitespace. -/
def cvU5 (t : List Char) : List Char := (cvU4 t).dropWhile isWSChar

/-- Remaining text after the project-version attribute literal. -/
def cvU6 (t : List Char) : List Char := (cvU5 t).drop cvPrj.length

/-- The projver capture group: the maximal `[\d.]` run. -/
def cvPV (t : List Char) : List Char := (cvU6 t).takeWhile isVerChar

/-- Remaining text after the projver capture group. -/
def cvU7 (t : List Char) : List Char := (cvU6 t).dropWhile isVerChar

/-- Remaining text after the projver closing quote. -/
def cvU8 (t : List Char) : List Char := (cvU7 t).drop 1

/-- Start offset of the appver capture group. -/
def cvA1 (t : List Char) : Nat :=
  cvOpen.length + ((t.drop cvOpen.length).takeWhile isWSChar).length + cvApp.length

/-- Start offset of the projver capture group. -/
def cvP1 (t : List Char) : Nat :=
  cvA1 t + (cvAV t).length + 1 + (cvW2 t).length + cvPrj.length

/-- Try to match the dual-capture pattern at the head of `t`.  On success
returns `(a1, a2, p1, p2)`: the appver group span `[a1, a2)` and the
projver group span `[p1, p2)` relative to `t`.  As for the single-capture
pattern, every greedy run is bounded by a character that cannot extend it,
so this maximal-munch model is exactly backtracking regex matching
anchored at the head. -/
def matchCVAt (t : List Char) : Option (Nat × Nat × Nat × Nat) :=
  if cvOpen.isPrefixOf t ∧ cvApp.isPrefixOf (cvU1 t) ∧ (cvAV t).length ≠ 0 ∧
      cvQuote.isPrefixOf (cvU3 t) ∧ (cvW2 t).length ≠ 0 ∧ cvPrj.isPrefixOf (cvU5 t) ∧
      (cvPV t).length ≠ 0 ∧ cvQuote.isPrefixOf (cvU7 t) ∧
      cvClose.isPrefixOf ((cvU8 t).dropWhile isWSChar) then
    some (cvA1 t, cvA1 t + (cvAV t).length, cvP1 t, cvP1 t + (cvPV t).length)
  else none

/-- Scan for the leftmost match of the dual-capture pattern; `pos` is the
absolute offset of the head of `t`. -/
def searchCVAux (t : List Char) (pos : Nat) : Option (Nat × Nat × Nat × Nat) :=
  match matchCVAt t with
  | some (a1, a2, p1, p2) => some (pos + a1, pos + a2, pos + p1, pos + p2)
  | none =>
    match t with
    | [] => none
    | _ :: rest => searchCVAux rest (pos + 1)

/-- Leftmost match of the dual-capture pattern over the whole text: the
group spans of `re.search(data)` for the comment pattern. -/
def searchCV (t : List Char) : Option (Nat × Nat × Nat × Nat) :=
  searchCVAux t 0

theorem takeWhile_lit_append_nil {p : Char → Bool} {lit : List Char} {c : Char} {cs : List Char}
    (hlit : lit = c :: cs) (hc : p c = false) (r : List Char) : (lit ++ r).takeWhile p = [] := by
  rw [hlit, List.cons_append]
  exact List.takeWhile_cons_of_neg (by simp [hc])

theorem matchCVAt_build {w1 av w2 pv w3 : List Char} (r : List Char)
    (hw1 : w1.all isWSChar = true) (hav : av.all isVerChar = true) (hav0 : av ≠ [])
    (hw2 : w2.all isWSChar = true) (hw20 : w2 ≠ [])
    (hpv : pv.all isVerChar = true) (hpv0 : pv ≠ [])
    (hw3 : w3.all isWSChar = true) :
    matchCVAt (cvOpen ++ (w1 ++ (cvApp ++ (av ++ (cvQuote ++ (w2 ++ (cvPrj ++ (pv ++
        (cvQuote ++ (w3 ++ (cvClose ++ r))))))))))) =
      some (14 + w1.length, 14 + w1.length + av.length,
        25 + w1.length + av.length + w2.length,
        25 + w1.length + av.length + w2.length + pv.length) := by
  have happnil : ∀ z : List Char, (cvApp ++ z).takeWhile isWSChar = [] :=
    @takeWhile_lit_append_nil isWSChar cvApp 'D' "bAppVer=\"".toList (by decide) (by decide)
  have hprjnil : ∀ z : List Char, (cvPrj ++ z).takeWhile isWSChar = [] :=
    @takeWhile_lit_append_nil isWSChar cvPrj 'D' "bPrjVer=\"".toList (by decide) (by decide)
  have hqver : ∀ z : List Char, (cvQuote ++ z).takeWhile isVerChar = [] :=
    @takeWhile_lit_append_nil isVerChar cvQuote '\"' [] (by decide) (by decide)
  have hclosews : ∀ z : List Char, (cvClose ++ z).takeWhile isWSChar = [] :=
    @takeWhile_lit_append_nil isWSChar cvClose '-' "->".toList (by decide) (by decide)
  have e0 : (cvOpen ++ (w1 ++ (cvApp ++ (av ++ (cvQuote ++ (w2 ++ (cvPrj ++ (pv ++
      (cvQuote ++ (w3 ++ (cvClose ++ r))))))))))).drop cvOpen.length
      = w1 ++ (cvApp ++ (av ++ (cvQuote ++ (w2 ++ (cvPrj ++ (pv ++
        (cvQuote ++ (w3 ++ (cvClose ++ r))))))))) := List.drop_left _ _
  have ew1 : (w1 ++ (cvApp ++ (av ++ (cvQuote ++ (w2 ++ (cvPrj ++ (pv ++
      (cvQuote ++ (w3 ++ (cvClose ++ r)))))))))).takeWhile isWSChar = w1 :=
    takeWhile_append_of_all_nil hw1 (happnil _)
  have eU1 : cvU1 (cvOpen ++ (w1 ++ (cvApp ++ (av ++ (cvQuote ++ (w2 ++ (cvPrj ++ (pv ++
      (cvQuote ++ (w3 ++ (cvClose ++ r))))))))))) = cvApp ++ (av ++ (cvQuote ++ (w2 ++
        (cvPrj ++ (pv ++ (cvQuote ++ (w3 ++ (cvClose ++ r)))))))) := by
    rw [cvU1, e0]
    exact dropWhile_append_of_all hw1 (happnil _)
  have eU2 : cvU2 (cvOpen ++ (w1 ++ (cvApp ++ (av ++ (cvQuote ++ (w2 ++ (cvPrj ++ (pv ++
      (cvQuote ++ (w3 ++ (cvClose ++ r))))))))))) = av ++ (cvQuote ++ (w2 ++
        (cvPrj ++ (pv ++ (cvQuote ++ (w3 ++ (cvClose ++ r))))))) := by
    rw [cvU2, eU1]
    exact List.drop_left _ _
  have eAV : cvAV (cvOpen ++ (w1 ++ (cvApp ++ (av ++ (cvQuote ++ (w2 ++ (cvPrj ++ (pv ++
      (cvQuote ++ (w3 ++ (cvClose ++ r))))))))))) = av := by
    rw [cvAV, eU2]
    exact takeWhile_append_of_all_nil hav (hqver _)
  have eU3 : cvU3 (cvOpen ++ (w1 ++ (cvApp ++ (av ++ (cvQuote ++ (w2 ++ (cvPrj ++ (pv ++
      (cvQuote ++ (w3 ++ (cvClose ++ r))))))))))) = cvQuote ++ (w2 ++
        (cvPrj ++ (pv ++ (cvQuote ++ (w3 ++ (cvClose ++ r)))))) := by
    rw [cvU3, eU2]
    exact dropWhile_append_of_all hav (hqver _)
  have eU4 : cvU4 (cvOpen ++ (w1 ++ (cvApp ++ (av ++ (cvQuote ++ (w2 ++ (cvPrj ++ (pv ++
      (cvQuote ++ (w3 ++ (cvClose ++ r))))))))))) = w2 ++
        (cvPrj ++ (pv ++ (cvQuote ++ (w3 ++ (cvClose ++ r))))) := by
    rw [cvU4, eU3]
    exact List.drop_left' (by decide)
  have eW2 : cvW2 (cvOpen ++ (w1 ++ (cvApp ++ (av ++ (cvQuote ++ (w2 ++ (cvPrj ++ (pv ++
      (cvQuote ++ (w3 ++ (cvClose ++ r))))))))))) = w2 := by
    rw [cvW2, eU4]
    exact takeWhile_append_of_all_nil hw2 (hprjnil _)
  have eU5 : cvU5 (cvOpen ++ (w1 ++ (cvApp ++ (av ++ (cvQuote ++ (w2 ++ (cvPrj ++ (pv ++
      (cvQuote ++ (w3 ++ (cvClose ++ r))))))))))) = cvPrj ++ (pv ++ (cvQuote ++ (w3 ++
        (cvClose ++ r)))) := by
    rw [cvU5, eU4]
    exact dropWhile_append_of_all hw2 (hprjnil _)
  have eU6 : cvU6 (cvOpen ++ (w1 ++ (cvApp ++ (av ++ (cvQuote ++ (w2 ++ (cvPrj ++ (pv ++
      (cvQuote ++ (w3 ++ (cvClose ++ r))))))))))) = pv ++ (cvQuote ++ (w3 ++
        (cvClose ++ r))) := by
    rw [cvU6, eU5]
    exact List.drop_left _ _
  have ePV : cvPV (cvOpen ++ (w1 ++ (cvApp ++ (av ++ (cvQuote ++ (w2 ++ (cvPrj ++ (pv ++
      (cvQuote ++ (w3 ++ (cvClose ++ r))))))))))) = pv := by
    rw [cvPV, eU6]
    exact takeWhile_append_of_all_nil hpv (hqver _)
  have eU7 : cvU7 (cvOpen ++ (w1 ++ (cvApp ++ (av ++ (cvQuote ++ (w2 ++ (cvPrj ++ (pv ++
      (cvQuote ++ (w3 ++ (cvClose ++ r))))))))))) = cvQuote ++ (w3 ++ (cvClose ++ r)) := by
    rw [cvU7, eU6]
    exact dropWhile_append_of_all hpv (hqver _)
  have eU8 : cvU8 (cvOpen ++ (w1 ++ (cvApp ++ (av ++ (cvQuote ++ (w2 ++ (cvPrj ++ (pv ++
      (cvQuote ++ (w3 ++ (cvClose ++ r))))))))))) = w3 ++ (cvClose ++ r) := by
    rw [cvU8, eU7]
    exact List.drop_left' (by decide)
  have eA1 : cvA1 (cvOpen ++ (w1 ++ (cvApp ++ (av ++ (cvQuote ++ (w2 ++ (cvPrj ++ (pv ++
      (cvQuote ++ (w3 ++ (cvClose ++ r))))))))))) = 14 + w1.length := by
    rw [cvA1, e0, ew1]
    have h4 : cvOpen.length = 4 := by decide
    have h10 : cvApp.length = 10 := by decide
    rw [h4, h10]
    omega
  have hpfx : ∀ (x : List Char) (y : List Char), x.isPrefixOf (x ++ y) = true := by
    intro x y
    rw [List.isPrefixOf_iff_prefix]
    exact List.prefix_append _ _
  have hcond : cvOpen.isPrefixOf (cvOpen ++ (w1 ++ (cvApp ++ (av ++ (cvQuote ++ (w2 ++
      (cvPrj ++ (pv ++ (cvQuote ++ (w3 ++ (cvClose ++ r))))))))))) ∧
      cvApp.isPrefixOf (cvU1 (cvOpen ++ (w1 ++ (cvApp ++ (av ++ (cvQuote ++ (w2 ++
        (cvPrj ++ (pv ++ (cvQuote ++ (w3 ++ (cvClose ++ r)))))))))))) ∧
      (cvAV (cvOpen ++ (w1 ++ (cvApp ++ (av ++ (cvQuote ++ (w2 ++ (cvPrj ++ (pv ++
        (cvQuote ++ (w3 ++ (cvClose ++ r)))))))))))).length ≠ 0 ∧
      cvQuote.isPrefixOf (cvU3 (cvOpen ++ (w1 ++ (cvApp ++ (av ++ (cvQuote ++ (w2 ++
        (cvPrj ++ (pv ++ (cvQuote ++ (w3 ++ (cvClose ++ r)))))))))))) ∧
      (cvW2 (cvOpen ++ (w1 ++ (cvApp ++ (av ++ (cvQuote ++ (w2 ++ (cvPrj ++ (pv ++
        (cvQuote ++ (w3 ++ (cvClose ++ r)))))))))))).length ≠ 0 ∧
      cvPrj.isPrefixOf (cvU5 (cvOpen ++ (w1 ++ (cvApp ++ (av ++ (cvQuote ++ (w2 ++
        (cvPrj ++ (pv ++ (cvQuote ++ (w3 ++ (cvClose ++ r)))))))))))) ∧
      (cvPV (cvOpen ++ (w1 ++ (cvApp ++ (av ++ (cvQuote ++ (w2 ++ (cvPrj ++ (pv ++
        (cvQuote ++ (w3 ++ (cvClose ++ r)))))))))))).length ≠ 0 ∧
      cvQuote.isPrefixOf (cvU7 (cvOpen ++ (w1 ++ (cvApp ++ (av ++ (cvQuote ++ (w2 ++
        (cvPrj ++ (pv ++ (cvQuote ++ (w3 ++ (cvClose ++ r)))))))))))) ∧
      cvClose.isPrefixOf ((cvU8 (cvOpen ++ (w1 ++ (cvApp ++ (av ++ (cvQuote ++ (w2 ++
        (cvPrj ++ (pv ++ (cvQuote ++ (w3 ++ (cvClose ++ r)))))))))))).dropWhile isWSChar) := by
    refine ⟨hpfx _ _, ?_, ?_, ?_, ?_, ?_, ?_, ?_, ?_⟩
    · rw [eU1]; exact hpfx _ _
    · rw [eAV]; simpa using hav0
    · rw [eU3]; exact hpfx _ _
    · rw [eW2]; simpa using hw20
    · rw [eU5]; exact hpfx _ _
    · rw [ePV]; simpa using hpv0
    · rw [eU7]; exact hpfx _ _
    · rw [eU8, dropWhile_append_of_all hw3 (hclosews _)]; exact hpfx _ _
  rw [matchCVAt, if_pos hcond]
  rw [cvP1, cvA1, e0, ew1, eAV, ePV, eW2]
  have h4 : cvOpen.length = 4 := by decide
  have h10a : cvApp.length = 10 := by decide
  have h10p : cvPrj.length = 10 := by decide
  rw [h4, h10a, h10p]
  simp only [Option.some.injEq, Prod.mk.injEq]
  refine ⟨by omega, by omega, by omega, by omega⟩

theorem matchCVAt_destruct {t : List Char} {a1 a2 p1 p2 : Nat}
    (h : matchCVAt t = some (a1, a2, p1, p2)) :
    ∃ w1 av w2 pv w3 r,
      t = cvOpen ++ (w1 ++ (cvApp ++ (av ++ (cvQuote ++ (w2 ++ (cvPrj ++ (pv ++
        (cvQuote ++ (w3 ++ (cvClose ++ r)))))))))) ∧
      w1.all isWSChar = true ∧ av.all isVerChar = true ∧ av ≠ [] ∧
      w2.all isWSChar = true ∧ w2 ≠ [] ∧ pv.all isVerChar = true ∧ pv ≠ [] ∧
      w3.all isWSChar = true ∧
      a1 = 14 + w1.length ∧ a2 = a1 + av.length ∧
      p1 = a2 + 11 + w2.length ∧ p2 = p1 + pv.length := by
  unfold matchCVAt at h
  split_ifs at h with hcond
  obtain ⟨h1, h2, h3, h4, h5, h6, h7, h8, h9⟩ := hcond
  simp only [Option.some.injEq, Prod.mk.injEq] at h
  obtain ⟨ea1, ea2, ep1, ep2⟩ := h
  obtain ⟨s1, hs1⟩ : ∃ s1, cvOpen ++ s1 = t := List.isPrefixOf_iff_prefix.mp h1
  have hU1 : cvU1 t = s1.dropWhile isWSChar := by
    rw [cvU1, ← hs1, List.drop_left]
  obtain ⟨s2, hs2⟩ : ∃ s2, cvApp ++ s2 = cvU1 t := List.isPrefixOf_iff_prefix.mp h2
  have hU2 : cvU2 t = s2 := by
    rw [cvU2, ← hs2, List.drop_left]
  have hU3 : cvU3 t = s2.dropWhile isVerChar := by
    rw [cvU3, hU2]
  obtain ⟨s3, hs3⟩ : ∃ s3, cvQuote ++ s3 = cvU3 t := List.isPrefixOf_iff_prefix.mp h4
  have hU4 : cvU4 t = s3 := by
    rw [cvU4, ← hs3]
    exact List.drop_left' (by decide)
  have hU5 : cvU5 t = s3.dropWhile isWSChar := by
    rw [cvU5, hU4]
  obtain ⟨s4, hs4⟩ : ∃ s4, cvPrj ++ s4 = cvU5 t := List.isPrefixOf_iff_prefix.mp h6
  have hU6 : cvU6 t = s4 := by
    rw [cvU6, ← hs4, List.drop_left]
  have hU7 : cvU7 t = s4.dropWhile isVerChar := by
    rw [cvU7, hU6]
  obtain ⟨s5, hs5⟩ : ∃ s5, cvQuote ++ s5 = cvU7 t := List.isPrefixOf_iff_prefix.mp h8
  have hU8 : cvU8 t = s5 := by
    rw [cvU8, ← hs5]
    exact List.drop_left' (by decide)
  obtain ⟨s6, hs6⟩ : ∃ s6, cvClose ++ s6 = (cvU8 t).dropWhile isWSChar :=
    List.isPrefixOf_iff_prefix.mp h9
  rw [hU8] at hs6
  refine ⟨s1.takeWhile isWSChar, s2.takeWhile isVerChar, s3.takeWhile isWSChar,
    s4.takeWhile isVerChar, s5.takeWhile isWSChar, s6,
    ?_, takeWhile_all _ _, takeWhile_all _ _, ?_, takeWhile_all _ _, ?_,
    takeWhile_all _ _, ?_, takeWhile_all _ _, ?_, ?_, ?_, ?_⟩
  · rw [← hs1]
    congr 1
    conv_lhs => rw [← List.takeWhile_append_dropWhile isWSChar s1]
    congr 1
    rw [← hU1, ← hs2]
    congr 1
    conv_lhs => rw [← List.takeWhile_append_dropWhile isVerChar s2]
    congr 1
    rw [← hU3, ← hs3]
    congr 1
    conv_lhs => rw [← List.takeWhile_append_dropWhile isWSChar s3]
    congr 1
    rw [← hU5, ← hs4]
    congr 1
    conv_lhs => rw [← List.takeWhile_append_dropWhile isVerChar s4]
    congr 1
    rw [← hU7, ← hs5]
    congr 1
    conv_lhs => rw [← List.takeWhile_append_dropWhile isWSChar s5]
    congr 1
    rw [← hs6]
  · rw [cvAV, hU2] at h3
    intro hnil
    rw [hnil] at h3
    exact h3 rfl
  · rw [cvW2, hU4] at h5
    intro hnil
    rw [hnil] at h5
    exact h5 rfl
  · rw [cvPV, hU6] at h7
    intro hnil
    rw [hnil] at h7
    exact h7 rfl
  · rw [← ea1, cvA1, ← hs1, List.drop_left]
    have h4' : cvOpen.length = 4 := by decide
    have h10' : cvApp.length = 10 := by decide
    rw [h4', h10']
    omega
  · rw [← ea2, ← ea1, cvAV, hU2]
  · rw [← ep1, ← ea2, cvP1, cvW2, hU4]
    have h10' : cvPrj.length = 10 := by decide
    rw [h10']
    omega
  · rw [← ep2, ← ep1, cvPV, hU6]

theorem drop_slice_split {t : List Char} {a b : Nat} (hab : a ≤ b) :
    t.drop a = sliceL t a b ++ t.drop b := by
  rw [sliceL]
  conv_lhs => rw [← List.take_append_drop (b - a) (t.drop a)]
  congr 1
  rw [List.drop_drop]
  congr 1
  omega

theorem take_split {t : List Char} {a b : Nat} (hab : a ≤ b) (hb : b ≤ t.length) :
    t.take b = t.take a ++ sliceL t a b := by
  have ha' : (t.take a).length = a := by
    simp [List.length_take]
    omega
  calc t.take b = (t.take a ++ t.drop a).take ((t.take a).length + (b - a)) := by
        rw [List.take_append_drop]
        congr 1
        omega
    _ = t.take a ++ (t.drop a).take (b - a) := List.take_append _
    _ = t.take a ++ sliceL t a b := rfl

theorem matchCVAt_nil : matchCVAt [] = none := by decide

theorem searchCVAux_some : ∀ (t : List Char) (pos as ae ps pe : Nat),
    searchCVAux t pos = some (as, ae, ps, pe) →
    ∃ k a1 a2 p1 p2, matchCVAt (t.drop k) = some (a1, a2, p1, p2) ∧
      as = pos + k + a1 ∧ ae = pos + k + a2 ∧ ps = pos + k + p1 ∧ pe = pos + k + p2 := by
  intro t
  induction t with
  | nil =>
    intro pos as ae ps pe h
    rw [searchCVAux, matchCVAt_nil] at h
    exact absurd h (by simp)
  | cons c t ih =>
    intro pos as ae ps pe h
    rw [searchCVAux] at h
    cases hm : matchCVAt (c :: t) with
    | some q =>
      rcases q with ⟨a1, a2, p1, p2⟩
      rw [hm] at h
      simp only [Option.some.injEq, Prod.mk.injEq] at h
      obtain ⟨e1, e2, e3, e4⟩ := h
      exact ⟨0, a1, a2, p1, p2, by simpa using hm, by omega, by omega, by omega, by omega⟩
    | none =>
      rw [hm] at h
      simp only at h
      obtain ⟨k, a1, a2, p1, p2, hsome, e1, e2, e3, e4⟩ := ih (pos + 1) as ae ps pe h
      exact ⟨k + 1, a1, a2, p1, p2, by simpa using hsome, by omega, by omega, by omega, by omega⟩

/-- Consolidated facts about a successful dual-capture search: the group
spans are ordered and in bounds, and both captured slices are nonempty
`[\d.]` runs. -/
theorem searchCV_parts {t : List Char} {as ae ps pe : Nat}
    (h : searchCV t = some (as, ae, ps, pe)) :
    as ≤ ae ∧ ae + 11 ≤ ps ∧ ps ≤ pe ∧ pe + 4 ≤ t.length ∧
    (sliceL t as ae).all isVerChar = true ∧ sliceL t as ae ≠ [] ∧
    (sliceL t ps pe).all isVerChar = true ∧ sliceL t ps pe ≠ [] := by
  obtain ⟨k, a1, a2, p1, p2, hsome, e1, e2, e3, e4⟩ := searchCVAux_some t 0 as ae ps pe h
  obtain ⟨w1, av, w2, pv, w3, r, hsplit, hw1, hav, hav0, hw2, hw20, hpv, hpv0, hw3,
    ha1, ha2, hp1, hp2⟩ := matchCVAt_destruct hsome
  have hk : k ≤ t.length := by
    by_contra hk
    rw [List.drop_eq_nil_of_le (by omega)] at hsplit
    exact absurd hsplit.symm (by simp [cvOpen])
  have h4 : cvOpen.length = 4 := by decide
  have h10a : cvApp.length = 10 := by decide
  have h10p : cvPrj.length = 10 := by decide
  have h1q : cvQuote.length = 1 := by decide
  have h3c : cvClose.length = 3 := by decide
  have hlen : t.length - k = 29 + w1.length + av.length + w2.length + pv.length + w3.length
      + r.length := by
    have hcong := congrArg List.length hsplit
    simp only [List.length_drop, List.length_append, h4, h10a, h10p, h1q, h3c] at hcong
    omega
  have hdropas : t.drop as = av ++ (cvQuote ++ (w2 ++ (cvPrj ++ (pv ++
      (cvQuote ++ (w3 ++ (cvClose ++ r))))))) := by
    have e0 : as = k + (14 + w1.length) := by omega
    rw [e0, ← List.drop_drop, hsplit]
    have eassoc : cvOpen ++ (w1 ++ (cvApp ++ (av ++ (cvQuote ++ (w2 ++ (cvPrj ++ (pv ++
        (cvQuote ++ (w3 ++ (cvClose ++ r))))))))))
        = ((cvOpen ++ w1) ++ cvApp) ++ (av ++ (cvQuote ++ (w2 ++ (cvPrj ++ (pv ++
          (cvQuote ++ (w3 ++ (cvClose ++ r)))))))) := by
      simp [List.append_assoc]
    rw [eassoc]
    exact List.drop_left' (by simp [h4, h10a]; omega)
  have hdropps : t.drop ps = pv ++ (cvQuote ++ (w3 ++ (cvClose ++ r))) := by
    have e0 : ps = k + (25 + w1.length + av.length + w2.length) := by omega
    rw [e0, ← List.drop_drop, hsplit]
    have eassoc : cvOpen ++ (w1 ++ (cvApp ++ (av ++ (cvQuote ++ (w2 ++ (cvPrj ++ (pv ++
        (cvQuote ++ (w3 ++ (cvClose ++ r))))))))))
        = (((((cvOpen ++ w1) ++ cvApp) ++ av) ++ cvQuote ++ w2) ++ cvPrj) ++ (pv ++
          (cvQuote ++ (w3 ++ (cvClose ++ r)))) := by
      simp [List.append_assoc]
    rw [eassoc]
    refine List.drop_left' ?_
    simp [h4, h10a, h10p, h1q]
    omega
  have hsliceav : sliceL t as ae = av := by
    rw [sliceL, hdropas]
    have e0 : ae - as = av.length := by omega
    rw [e0]
    exact List.take_left _ _
  have hslicepv : sliceL t ps pe = pv := by
    rw [sliceL, hdropps]
    have e0 : pe - ps = pv.length := by omega
    rw [e0]
    exact List.take_left _ _
  refine ⟨by omega, by omega, by omega, by omega, ?_, ?_, ?_, ?_⟩
  · rw [hsliceav]; exact hav
  · rw [hsliceav]; exact hav0
  · rw [hslicepv]; exact hpv
  · rw [hslicepv]; exact hpv0

/-! ### The patchers and the archive rewriter of `drprojver.py` -/

/-- Outcome of a failed patcher call: either the bytes are not valid
UTF-8 (Python's `UnicodeDecodeError`, uncaught by the rewriter loop), or
the version assertion failed (Python's `raise AssertionError` with the
actual captured value as payload, caught by the rewriter loop). -/
inductive PErr where
  | decodeErr : PErr
  | assertErr : List Char → PErr
deriving DecidableEq

/-- Embedding of `patch_xml_projectversion.__new__` (lines 21–38): decode
the bytes, search the single-capture pattern, optionally assert the
captured digits, replace the capture span with `set_ver`, re-encode.  A
blob without a match is returned unchanged. -/
def patch_xml_projectversion (data_bytes : List Nat) (set_ver assert_ver : List Char) :
    Except PErr (List Nat) :=
  match utf8Decode data_bytes with
  | none => .error .decodeErr
  | some data =>
    match searchPV data with
    | none => .ok data_bytes
    | some (gs, ge) =>
      if assert_ver ≠ [] ∧ sliceL data gs ge ≠ assert_ver then
        .error (.assertErr (sliceL data gs ge))
      else
        .ok (utf8Encode (data.take gs ++ (set_ver ++ data.drop ge)))

/-- Embedding of `patch_comment_version_info.__new__` (lines 48–67):
decode, search the dual-capture pattern, optionally assert the captured
projver value, replace the projver span with `set_ver`, then — on the
already-mutated text but with the original match offsets, exactly as the
source does — replace the appver span with `set_appver` when that target
is nonempty, and re-encode.  (The source's `m.group("projver") is not
None` guard is vacuous: the group is mandatory in the pattern.) -/
def patch_comment_version_info (data_bytes : List Nat)
    (set_ver assert_ver set_appver : List Char) : Except PErr (List Nat) :=
  match utf8Decode data_bytes with
  | none => .error .decodeErr
  | some data =>
    match searchCV data with
    | none => .ok data_bytes
    | some (as, ae, ps, pe) =>
      if assert_ver ≠ [] ∧ sliceL data ps pe ≠ assert_ver then
        .error (.assertErr (sliceL data ps pe))
      else
        .ok (utf8Encode (
          if set_appver ≠ [] then
            (data.take ps ++ (set_ver ++ data.drop pe)).take as ++
              (set_appver ++ (data.take ps ++ (set_ver ++ data.drop pe)).drop ae)
          else data.take ps ++ (set_ver ++ data.drop pe)))

/-- One member of the zip container: its name, its other header metadata
(opaque to the rewriter, passed through to `writestr` unchanged), and its
byte content. -/
structure Entry where
  name : List Char
  info : List Nat
  content : List Nat
deriving DecidableEq

/-- One diagnostic line printed on an assertion mismatch, carrying the
actual captured value and the expected value (line 97–99/107–110 of the
source). -/
structure Diag where
  actual : List Char
  expected : List Char
deriving DecidableEq

/-- The project-file suffix tested at line 92 of the source. -/
def sfxRoject : List Char := "roject.xml".toList

/-- The generic XML suffix tested at line 101 of the source. -/
def sfxXml : List Char := ".xml".toList

/-- Per-entry body of the rewriter loop (lines 88–114): run the
single-capture patcher on `*roject.xml` entries, then the dual-capture
patcher on `*.xml` entries when an application-version target is given;
an `AssertionError` is caught, logged and skipped, while a decode error
propagates and aborts the run (`.error`). -/
def processEntry (set_ver assert_ver set_appver : List Char) (e : Entry) :
    Except Unit (List Nat × List Diag) :=
  match (if sfxRoject.isSuffixOf e.name then
      match patch_xml_projectversion e.content set_ver assert_ver with
      | .ok d => Except.ok (d, ([] : List Diag))
      | .error (.assertErr v) => Except.ok (e.content, [⟨v, assert_ver⟩])
      | .error .decodeErr => Except.error ()
    else Except.ok (e.content, ([] : List Diag))) with
  | .error _ => .error ()
  | .ok (d1, ds1) =>
    if set_appver ≠ [] ∧ sfxXml.isSuffixOf e.name then
      match patch_comment_version_info d1 set_ver assert_ver set_appver with
      | .ok d2 => .ok (d2, ds1)
      | .error (.assertErr v) => .ok (d1, ds1 ++ [⟨v, assert_ver⟩])
      | .error .decodeErr => .error ()
    else .ok (d1, ds1)

/-- Embedding of `process_dr_project` (lines 70–114): process the entries
in stored order, writing each entry to the output container under its
original name and metadata with the (possibly patched) content, and
collecting the printed diagnostics.  An uncaught decode error aborts the
run (in the source the output archive is then left incomplete; the model
collapses that to an error outcome with no output listing). -/
def process_dr_project (entries : List Entry) (set_ver assert_ver set_appver : List Char) :
    Except Unit (List Entry × List Diag) :=
  match entries with
  | [] => .ok ([], [])
  | e :: rest =>
    match processEntry set_ver assert_ver set_appver e with
    | .error _ => .error ()
    | .ok (d, ds) =>
      match process_dr_project rest set_ver assert_ver set_appver with
      | .error _ => .error ()
      | .ok (out, dss) => .ok (⟨e.name, e.info, d⟩ :: out, ds ++ dss)

/-! ### Dispatch lemmas for the patchers -/

theorem patch_xml_decode_none {b : List Nat} (sv av : List Char)
    (hdec : utf8Decode b = none) :
    patch_xml_projectversion b sv av = .error .decodeErr := by
  unfold patch_xml_projectversion
  rw [hdec]

theorem patch_xml_eq {b : List Nat} {t : List Char} (sv av : List Char)
    (hdec : utf8Decode b = some t) :
    patch_xml_projectversion b sv av =
      match searchPV t with
      | none => .ok b
      | some (gs, ge) =>
        if av ≠ [] ∧ sliceL t gs ge ≠ av then .error (.assertErr (sliceL t gs ge))
        else .ok (utf8Encode (t.take gs ++ (sv ++ t.drop ge))) := by
  unfold patch_xml_projectversion
  rw [hdec]

theorem patch_xml_no_match {b : List Nat} {t : List Char} (sv av : List Char)
    (hdec : utf8Decode b = some t) (hno : searchPV t = none) :
    patch_xml_projectversion b sv av = .ok b := by
  rw [patch_xml_eq sv av hdec, hno]

theorem patch_xml_found {b : List Nat} {t : List Char} {gs ge : Nat} (sv av : List Char)
    (hdec : utf8Decode b = some t) (hs : searchPV t = some (gs, ge))
    (hpass : av = [] ∨ sliceL t gs ge = av) :
    patch_xml_projectversion b sv av =
      .ok (utf8Encode (t.take gs ++ (sv ++ t.drop ge))) := by
  rw [patch_xml_eq sv av hdec, hs]
  simp only
  rw [if_neg]
  rcases hpass with hpass | hpass <;> simp [hpass]

theorem patch_xml_assert_fail {b : List Nat} {t : List Char} {gs ge : Nat} (sv : List Char)
    {av : List Char} (hdec : utf8Decode b = some t) (hs : searchPV t = some (gs, ge))
    (hne : av ≠ []) (hdiff : sliceL t gs ge ≠ av) :
    patch_xml_projectversion b sv av = .error (.assertErr (sliceL t gs ge)) := by
  rw [patch_xml_eq sv av hdec, hs]
  simp only
  rw [if_pos ⟨hne, hdiff⟩]

theorem patch_cv_decode_none {b : List Nat} (sv av sav : List Char)
    (hdec : utf8Decode b = none) :
    patch_comment_version_info b sv av sav = .error .decodeErr := by
  unfold patch_comment_version_info
  rw [hdec]

theorem patch_cv_eq {b : List Nat} {t : List Char} (sv av sav : List Char)
    (hdec : utf8Decode b = some t) :
    patch_comment_version_info b sv av sav =
      match searchCV t with
      | none => .ok b
      | some (as, ae, ps, pe) =>
        if av ≠ [] ∧ sliceL t ps pe ≠ av then .error (.assertErr (sliceL t ps pe))
        else .ok (utf8Encode (
          if sav ≠ [] then
            (t.take ps ++ (sv ++ t.drop pe)).take as ++
              (sav ++ (t.take ps ++ (sv ++ t.drop pe)).drop ae)
          else t.take ps ++ (sv ++ t.drop pe))) := by
  unfold patch_comment_version_info
  rw [hdec]

theorem patch_cv_no_match {b : List Nat} {t : List Char} (sv av sav : List Char)
    (hdec : utf8Decode b = some t) (hno : searchCV t = none) :
    patch_comment_version_info b sv av sav = .ok b := by
  rw [patch_cv_eq sv av sav hdec, hno]

theorem patch_cv_found {b : List Nat} {t : List Char} {as ae ps pe : Nat} (sv av sav : List Char)
    (hdec : utf8Decode b = some t) (hs : searchCV t = some (as, ae, ps, pe))
    (hpass : av = [] ∨ sliceL t ps pe = av) :
    patch_comment_version_info b sv av sav =
      .ok (utf8Encode (
        if sav ≠ [] then
          (t.take ps ++ (sv ++ t.drop pe)).take as ++
            (sav ++ (t.take ps ++ (sv ++ t.drop pe)).drop ae)
        else t.take ps ++ (sv ++ t.drop pe))) := by
  rw [patch_cv_eq sv av sav hdec, hs]
  simp only
  rw [if_neg]
  rcases hpass with hpass | hpass <;> simp [hpass]

theorem patch_cv_assert_fail {b : List Nat} {t : List Char} {as ae ps pe : Nat}
    (sv : List Char) {av : List Char} (sav : List Char)
    (hdec : utf8Decode b = some t) (hs : searchCV t = some (as, ae, ps, pe))
    (hne : av ≠ []) (hdiff : sliceL t ps pe ≠ av) :
    patch_comment_version_info b sv av sav = .error (.assertErr (sliceL t ps pe)) := by
  rw [patch_cv_eq sv av sav hdec, hs]
  simp only
  rw [if_pos ⟨hne, hdiff⟩]

/-- Consolidated facts about a successful single-capture search: the
group span is ordered and in bounds, and the captured slice is a
nonempty digit run. -/
theorem searchPV_parts {t : List Char} {gs ge : Nat} (h : searchPV t = some (gs, ge)) :
    16 ≤ gs ∧ gs ≤ ge ∧ ge + 17 ≤ t.length ∧
    (sliceL t gs ge).all isDigitChar = true ∧ sliceL t gs ge ≠ [] := by
  obtain ⟨k, a, d, c, r, hnone, hk, hsplit, ha, hd, hd0, hc, hgs, hge⟩ := searchPV_decomp h
  have h16 : pvOpen.length = 16 := by decide
  have h17 : pvClose.length = 17 := by decide
  have hlen : t.length - k = 33 + a.length + d.length + c.length + r.length := by
    have hcong := congrArg List.length hsplit
    simp only [List.length_drop, List.length_append, h16, h17] at hcong
    omega
  have hd0len : 1 ≤ d.length := by
    cases d with
    | nil => exact absurd rfl hd0
    | cons _ _ => simp
  have hdropgs : t.drop gs = d ++ (c ++ (pvClose ++ r)) := by
    have e0 : gs = k + (16 + a.length) := by omega
    rw [e0, ← List.drop_drop, hsplit]
    have eassoc : pvOpen ++ (a ++ (d ++ (c ++ (pvClose ++ r))))
        = (pvOpen ++ a) ++ (d ++ (c ++ (pvClose ++ r))) := by
      simp [List.append_assoc]
    rw [eassoc]
    exact List.drop_left' (by simp [h16])
  have hslice : sliceL t gs ge = d := by
    rw [sliceL, hdropgs]
    have e0 : ge - gs = d.length := by omega
    rw [e0]
    exact List.take_left _ _
  refine ⟨by omega, by omega, by omega, ?_, ?_⟩
  · rw [hslice]; exact hd
  · rw [hslice]; exact hd0

/-! ### Dispatch lemmas for the rewriter loop -/

theorem processEntry_skip {sv av sav : List Char} {e : Entry}
    (h1 : sfxRoject.isSuffixOf e.name = false)
    (h2 : sav = [] ∨ sfxXml.isSuffixOf e.name = false) :
    processEntry sv av sav e = .ok (e.content, []) := by
  unfold processEntry
  rw [if_neg (by simp [h1])]
  simp only
  rw [if_neg]
  rcases h2 with h2 | h2 <;> simp [h2]

theorem processEntry_roject_ok {sv av sav : List Char} {e : Entry} {d : List Nat}
    (hsfx : sfxRoject.isSuffixOf e.name = true) (hsav : sav = [])
    (hp : patch_xml_projectversion e.content sv av = .ok d) :
    processEntry sv av sav e = .ok (d, []) := by
  unfold processEntry
  rw [if_pos hsfx, hp]
  simp only
  rw [if_neg (by simp [hsav])]

theorem processEntry_roject_assert_fail {sv av sav : List Char} {e : Entry} {v : List Char}
    (hsfx : sfxRoject.isSuffixOf e.name = true) (hsav : sav = [])
    (hp : patch_xml_projectversion e.content sv av = .error (.assertErr v)) :
    processEntry sv av sav e = .ok (e.content, [⟨v, av⟩]) := by
  unfold processEntry
  rw [if_pos hsfx, hp]
  simp only
  rw [if_neg (by simp [hsav])]

theorem processEntry_err {sv av sav : List Char} {e : Entry}
    (hsfx : sfxRoject.isSuffixOf e.name = true ∨
      (sav ≠ [] ∧ sfxXml.isSuffixOf e.name = true))
    (hdec : utf8Decode e.content = none) :
    processEntry sv av sav e = .error () := by
  unfold processEntry
  by_cases hr : sfxRoject.isSuffixOf e.name = true
  · rw [if_pos hr, patch_xml_decode_none sv av hdec]
  · rw [if_neg hr]
    simp only
    have h2 : sav ≠ [] ∧ sfxXml.isSuffixOf e.name = true := by
      rcases hsfx with hsfx | hsfx
      · exact absurd hsfx hr
      · exact hsfx
    rw [if_pos (by simpa using h2), patch_cv_decode_none sv av sav hdec]

theorem process_cons_ok {sv av sav : List Char} {e : Entry} {es out : List Entry}
    {ds dl : List Diag} {d : List Nat}
    (he : processEntry sv av sav e = .ok (d, dl))
    (hrest : process_dr_project es sv av sav = .ok (out, ds)) :
    process_dr_project (e :: es) sv av sav = .ok (⟨e.name, e.info, d⟩ :: out, dl ++ ds) := by
  unfold process_dr_project
  rw [he, hrest]

theorem process_err_of_mem {sv av sav : List Char} {e : Entry} {es : List Entry}
    (hmem : e ∈ es) (he : processEntry sv av sav e = .error ()) :
    process_dr_project es sv av sav = .error () := by
  induction es with
  | nil => cases hmem
  | cons a rest ih =>
    rw [process_dr_project]
    rcases List.mem_cons.mp hmem with rfl | hmem'
    · rw [he]
    · cases ha : processEntry sv av sav a with
      | error u => rfl
      | ok p =>
        rcases p with ⟨d, dl⟩
        simp only
        rw [ih hmem']

/-- Structure of a successful run: one output entry per input entry, in
order, with name and metadata propagated and content produced by the
per-entry processing. -/
theorem process_ok_spec : ∀ (es : List Entry) (sv av sav : List Char)
    (out : List Entry) (ds : List Diag),
    process_dr_project es sv av sav = .ok (out, ds) →
    out.length = es.length ∧
    ∀ i (h1 : i < es.length) (h2 : i < out.length),
      (out.get ⟨i, h2⟩).name = (es.get ⟨i, h1⟩).name ∧
      (out.get ⟨i, h2⟩).info = (es.get ⟨i, h1⟩).info ∧
      ∃ dl, processEntry sv av sav (es.get ⟨i, h1⟩) = .ok ((out.get ⟨i, h2⟩).content, dl) := by
  intro es
  induction es with
  | nil =>
    intro sv av sav out ds h
    rw [process_dr_project] at h
    simp only [Except.ok.injEq, Prod.mk.injEq] at h
    obtain ⟨h1, h2⟩ := h
    subst h1
    exact ⟨rfl, fun i hi _ => absurd hi (by simp)⟩
  | cons e rest ih =>
    intro sv av sav out ds h
    rw [process_dr_project] at h
    cases he : processEntry sv av sav e with
    | error u => rw [he] at h; exact absurd h (by simp)
    | ok p =>
      rcases p with ⟨d, dl⟩
      rw [he] at h
      simp only at h
      cases hrest : process_dr_project rest sv av sav with
      | error u => rw [hrest] at h; exact absurd h (by simp)
      | ok q =>
        rcases q with ⟨out', dss⟩
        rw [hrest] at h
        simp only [Except.ok.injEq, Prod.mk.injEq] at h
        obtain ⟨h1, h2⟩ := h
        subst h1
        obtain ⟨ihlen, ihspec⟩ := ih sv av sav out' dss hrest
        refine ⟨by simp [ihlen], ?_⟩
        intro i hi1 hi2
        cases i with
        | zero => exact ⟨rfl, rfl, dl, by simpa using he⟩
        | succ i' =>
          have hi1' : i' < rest.length := by simpa using hi1
          have hi2' : i' < out'.length := by simpa using hi2
          exact ihspec i' hi1' hi2'

/-! ### The claims -/

/-- C9: for every decodable blob in which the patcher's pattern does not
occur, each patcher returns the input bytes unchanged, raising no error
and producing no diagnostic (the `.ok` outcome carries no diagnostic and
the caught-and-logged assertion branch is never reached); pattern absence
is silent pass-through, not an error. -/
theorem C9_pattern_absent_passthrough (b b2 : List Nat) (t t2 sv av sav : List Char)
    (hdec : utf8Decode b = some t) (hno : searchPV t = none)
    (hdec2 : utf8Decode b2 = some t2) (hno2 : searchCV t2 = none) :
    patch_xml_projectversion b sv av = .ok b ∧
    patch_comment_version_info b2 sv av sav = .ok b2 :=
  ⟨patch_xml_no_match sv av hdec hno, patch_cv_no_match sv av sav hdec2 hno2⟩

theorem C9_witness :
    utf8Decode (utf8Encode "<Other>5</Other>".toList) = some "<Other>5</Other>".toList ∧
    searchPV "<Other>5</Other>".toList = none ∧
    searchCV "<Other>5</Other>".toList = none ∧
    patch_xml_projectversion (utf8Encode "<Other>5</Other>".toList) "6".toList "5".toList
      = .ok (utf8Encode "<Other>5</Other>".toList) ∧
    patch_comment_version_info (utf8Encode "<Other>5</Other>".toList) "6".toList "5".toList
      "18.5".toList = .ok (utf8Encode "<Other>5</Other>".toList) :=
  ⟨rfl, rfl, rfl,
    (C9_pattern_absent_passthrough (utf8Encode "<Other>5</Other>".toList)
      (utf8Encode "<Other>5</Other>".toList) "<Other>5</Other>".toList
      "<Other>5</Other>".toList "6".toList "5".toList "18.5".toList rfl rfl rfl rfl).1,
    (C9_pattern_absent_passthrough (utf8Encode "<Other>5</Other>".toList)
      (utf8Encode "<Other>5</Other>".toList) "<Other>5</Other>".toList
      "<Other>5</Other>".toList "6".toList "5".toList "18.5".toList rfl rfl rfl rfl).2⟩

/-- C8: for every decodable blob where the pattern occurs and a nonempty
assertion value equals the actually captured version, each patcher
produces exactly the same output as it would with the empty (absent)
assertion value, for the same blob and the same replacement targets. -/
theorem C8_assert_equal_like_no_assert (b b2 : List Nat) (t t2 sv sav av : List Char)
    (gs ge as ae ps pe : Nat) (hne : av ≠ [])
    (hdec : utf8Decode b = some t) (hs : searchPV t = some (gs, ge))
    (heq : sliceL t gs ge = av)
    (hdec2 : utf8Decode b2 = some t2) (hs2 : searchCV t2 = some (as, ae, ps, pe))
    (heq2 : sliceL t2 ps pe = av) :
    patch_xml_projectversion b sv av = patch_xml_projectversion b sv [] ∧
    patch_comment_version_info b2 sv av sav = patch_comment_version_info b2 sv [] sav := by
  constructor
  · rw [patch_xml_found sv av hdec hs (Or.inr heq), patch_xml_found sv [] hdec hs (Or.inl rfl)]
  · rw [patch_cv_found sv av sav hdec2 hs2 (Or.inr heq2),
      patch_cv_found sv [] sav hdec2 hs2 (Or.inl rfl)]

theorem C8_witness :
    ("5".toList ≠ ([] : List Char)) ∧
    utf8Decode (utf8Encode "<ProjectVersion>5</ProjectVersion>".toList)
      = some "<ProjectVersion>5</ProjectVersion>".toList ∧
    searchPV "<ProjectVersion>5</ProjectVersion>".toList = some (16, 17) ∧
    sliceL "<ProjectVersion>5</ProjectVersion>".toList 16 17 = "5".toList ∧
    utf8Decode (utf8Encode "<!-- DbAppVer=\"18.0\" DbPrjVer=\"5\" -->".toList)
      = some "<!-- DbAppVer=\"18.0\" DbPrjVer=\"5\" -->".toList ∧
    searchCV "<!-- DbAppVer=\"18.0\" DbPrjVer=\"5\" -->".toList = some (15, 19, 31, 32) ∧
    sliceL "<!-- DbAppVer=\"18.0\" DbPrjVer=\"5\" -->".toList 31 32 = "5".toList ∧
    patch_xml_projectversion (utf8Encode "<ProjectVersion>5</ProjectVersion>".toList)
        "6".toList "5".toList
      = patch_xml_projectversion (utf8Encode "<ProjectVersion>5</ProjectVersion>".toList)
        "6".toList [] ∧
    patch_comment_version_info (utf8Encode "<!-- DbAppVer=\"18.0\" DbPrjVer=\"5\" -->".toList)
        "6".toList "5".toList "18.5".toList
      = patch_comment_version_info (utf8Encode "<!-- DbAppVer=\"18.0\" DbPrjVer=\"5\" -->".toList)
        "6".toList [] "18.5".toList :=
  ⟨by decide, rfl, rfl, rfl, rfl, rfl, rfl,
    (C8_assert_equal_like_no_assert (utf8Encode "<ProjectVersion>5</ProjectVersion>".toList)
      (utf8Encode "<!-- DbAppVer=\"18.0\" DbPrjVer=\"5\" -->".toList)
      "<ProjectVersion>5</ProjectVersion>".toList
      "<!-- DbAppVer=\"18.0\" DbPrjVer=\"5\" -->".toList
      "6".toList "18.5".toList "5".toList 16 17 15 19 31 32
      (by decide) rfl rfl rfl rfl rfl rfl).1,
    (C8_assert_equal_like_no_assert (utf8Encode "<ProjectVersion>5</ProjectVersion>".toList)
      (utf8Encode "<!-- DbAppVer=\"18.0\" DbPrjVer=\"5\" -->".toList)
      "<ProjectVersion>5</ProjectVersion>".toList
      "<!-- DbAppVer=\"18.0\" DbPrjVer=\"5\" -->".toList
      "6".toList "18.5".toList "5".toList 16 17 15 19 31 32
      (by decide) rfl rfl rfl rfl rfl rfl).2⟩

/-- C10 (implicit): an entry whose name ends in a recognized suffix but
whose bytes are not valid UTF-8 makes the patcher's decode step fail; the
failure is not the caught `AssertionError`, so the rewrite of the whole
container aborts — the entry is not passed through unmodified. -/
theorem C10_invalid_utf8_aborts (es : List Entry) (e : Entry) (sv av sav : List Char)
    (hmem : e ∈ es)
    (hsfx : sfxRoject.isSuffixOf e.name = true ∨
      (sav ≠ [] ∧ sfxXml.isSuffixOf e.name = true))
    (hdec : utf8Decode e.content = none) :
    patch_xml_projectversion e.content sv av = .error .decodeErr ∧
    patch_comment_version_info e.content sv av sav = .error .decodeErr ∧
    process_dr_project es sv av sav = .error () :=
  ⟨patch_xml_decode_none sv av hdec, patch_cv_decode_none sv av sav hdec,
    process_err_of_mem hmem (processEntry_err hsfx hdec)⟩

theorem C10_witness :
    (⟨"Project.xml".toList, [], [0xFF]⟩ : Entry) ∈
      [(⟨"Project.xml".toList, [], [0xFF]⟩ : Entry)] ∧
    sfxRoject.isSuffixOf "Project.xml".toList = true ∧
    utf8Decode [0xFF] = none ∧
    patch_xml_projectversion [0xFF] "6".toList [] = .error .decodeErr ∧
    process_dr_project [⟨"Project.xml".toList, [], [0xFF]⟩] "6".toList [] [] = .error () :=
  ⟨List.mem_singleton.mpr rfl, by decide, rfl,
    (C10_invalid_utf8_aborts [⟨"Project.xml".toList, [], [0xFF]⟩]
      ⟨"Project.xml".toList, [], [0xFF]⟩ "6".toList [] []
      (List.mem_singleton.mpr rfl) (Or.inl (by decide)) rfl).1,
    (C10_invalid_utf8_aborts [⟨"Project.xml".toList, [], [0xFF]⟩]
      ⟨"Project.xml".toList, [], [0xFF]⟩ "6".toList [] []
      (List.mem_singleton.mpr rfl) (Or.inl (by decide)) rfl).2.2⟩

/-- C4: in a successful run, an entry whose name ends in no recognized
suffix — not `roject.xml`, and not `.xml` when an application-version
target is supplied — has output content byte-identical to its input
content. -/
theorem C4_unrecognized_suffix_passthrough (es out : List Entry) (ds : List Diag)
    (sv av sav : List Char) (i : Nat) (h1 : i < es.length) (h2 : i < out.length)
    (hrun : process_dr_project es sv av sav = .ok (out, ds))
    (hnr : sfxRoject.isSuffixOf (es.get ⟨i, h1⟩).name = false)
    (hnx : sav = [] ∨ sfxXml.isSuffixOf (es.get ⟨i, h1⟩).name = false) :
    (out.get ⟨i, h2⟩).content = (es.get ⟨i, h1⟩).content := by
  obtain ⟨hlen, hspec⟩ := process_ok_spec es sv av sav out ds hrun
  obtain ⟨_, _, dl, hpe⟩ := hspec i h1 h2
  rw [processEntry_skip hnr hnx] at hpe
  simp only [Except.ok.injEq, Prod.mk.injEq] at hpe
  exact hpe.1.symm

theorem C4_witness :
    (([⟨"Project.xml".toList, [], utf8Encode "<ProjectVersion>6</ProjectVersion>".toList⟩,
        ⟨"media.bin".toList, [3], [0, 1, 2]⟩] : List Entry).get ⟨1, by decide⟩).content
      = (([⟨"Project.xml".toList, [], utf8Encode "<ProjectVersion>5</ProjectVersion>".toList⟩,
        ⟨"media.bin".toList, [3], [0, 1, 2]⟩] : List Entry).get ⟨1, by decide⟩).content :=
  C4_unrecognized_suffix_passthrough
    [⟨"Project.xml".toList, [], utf8Encode "<ProjectVersion>5</ProjectVersion>".toList⟩,
      ⟨"media.bin".toList, [3], [0, 1, 2]⟩]
    [⟨"Project.xml".toList, [], utf8Encode "<ProjectVersion>6</ProjectVersion>".toList⟩,
      ⟨"media.bin".toList, [3], [0, 1, 2]⟩]
    [] "6".toList "5".toList "18.5".toList 1 (by decide) (by decide) rfl (by decide)
    (Or.inr (by decide))

/-- C5: a successful run writes exactly one output entry per input entry,
in the same stored order, under the identical entry name and metadata,
whether or not any patch applied; only content may change. -/
theorem C5_names_order_metadata_invariant (es out : List Entry) (ds : List Diag)
    (sv av sav : List Char)
    (hrun : process_dr_project es sv av sav = .ok (out, ds)) :
    out.length = es.length ∧
    ∀ i (h1 : i < es.length) (h2 : i < out.length),
      (out.get ⟨i, h2⟩).name = (es.get ⟨i, h1⟩).name ∧
      (out.get ⟨i, h2⟩).info = (es.get ⟨i, h1⟩).info := by
  obtain ⟨hlen, hspec⟩ := process_ok_spec es sv av sav out ds hrun
  exact ⟨hlen, fun i h1 h2 => ⟨(hspec i h1 h2).1, (hspec i h1 h2).2.1⟩⟩

theorem C5_witness :
    ([⟨"Project.xml".toList, [9], utf8Encode "<ProjectVersion>6</ProjectVersion>".toList⟩,
        ⟨"media.bin".toList, [3], [0, 1, 2]⟩] : List Entry).length
      = ([⟨"Project.xml".toList, [9], utf8Encode "<ProjectVersion>5</ProjectVersion>".toList⟩,
        ⟨"media.bin".toList, [3], [0, 1, 2]⟩] : List Entry).length ∧
    (([⟨"Project.xml".toList, [9], utf8Encode "<ProjectVersion>6</ProjectVersion>".toList⟩,
        ⟨"media.bin".toList, [3], [0, 1, 2]⟩] : List Entry).get ⟨0, by decide⟩).name
      = (([⟨"Project.xml".toList, [9], utf8Encode "<ProjectVersion>5</ProjectVersion>".toList⟩,
        ⟨"media.bin".toList, [3], [0, 1, 2]⟩] : List Entry).get ⟨0, by decide⟩).name ∧
    (([⟨"Project.xml".toList, [9], utf8Encode "<ProjectVersion>6</ProjectVersion>".toList⟩,
        ⟨"media.bin".toList, [3], [0, 1, 2]⟩] : List Entry).get ⟨0, by decide⟩).info
      = (([⟨"Project.xml".toList, [9], utf8Encode "<ProjectVersion>5</ProjectVersion>".toList⟩,
        ⟨"media.bin".toList, [3], [0, 1, 2]⟩] : List Entry).get ⟨0, by decide⟩).info :=
  ⟨(C5_names_order_metadata_invariant
      [⟨"Project.xml".toList, [9], utf8Encode "<ProjectVersion>5</ProjectVersion>".toList⟩,
        ⟨"media.bin".toList, [3], [0, 1, 2]⟩]
      [⟨"Project.xml".toList, [9], utf8Encode "<ProjectVersion>6</ProjectVersion>".toList⟩,
        ⟨"media.bin".toList, [3], [0, 1, 2]⟩]
      [] "6".toList [] [] rfl).1,
    ((C5_names_order_metadata_invariant
      [⟨"Project.xml".toList, [9], utf8Encode "<ProjectVersion>5</ProjectVersion>".toList⟩,
        ⟨"media.bin".toList, [3], [0, 1, 2]⟩]
      [⟨"Project.xml".toList, [9], utf8Encode "<ProjectVersion>6</ProjectVersion>".toList⟩,
        ⟨"media.bin".toList, [3], [0, 1, 2]⟩]
      [] "6".toList [] [] rfl).2 0 (by decide) (by decide)).1,
    ((C5_names_order_metadata_invariant
      [⟨"Project.xml".toList, [9], utf8Encode "<ProjectVersion>5</ProjectVersion>".toList⟩,
        ⟨"media.bin".toList, [3], [0, 1, 2]⟩]
      [⟨"Project.xml".toList, [9], utf8Encode "<ProjectVersion>6</ProjectVersion>".toList⟩,
        ⟨"media.bin".toList, [3], [0, 1, 2]⟩]
      [] "6".toList [] [] rfl).2 0 (by decide) (by decide)).2⟩

/-- C1: for an entry whose name matches the project-file suffix rule, when
the decoded blob contains the single-capture pattern and no assertion
value is given, the single-capture patcher's output differs from the input
only within the captured digit span: the input bytes split as
prefix/captured-digits/suffix, and the output is exactly the same prefix,
the encoded supplied version string, and the same suffix. -/
theorem C1_single_capture_patch (nm : List Char) (info b : List Nat) (t sv : List Char)
    (gs ge : Nat) (hsfx : sfxRoject.isSuffixOf nm = true)
    (hdec : utf8Decode b = some t) (hs : searchPV t = some (gs, ge)) :
    patch_xml_projectversion b sv [] =
      .ok (utf8Encode (t.take gs) ++ (utf8Encode sv ++ utf8Encode (t.drop ge))) ∧
    b = utf8Encode (t.take gs) ++ (utf8Encode (sliceL t gs ge) ++ utf8Encode (t.drop ge)) ∧
    (sliceL t gs ge).all isDigitChar = true ∧ sliceL t gs ge ≠ [] ∧
    processEntry sv [] [] ⟨nm, info, b⟩ =
      .ok (utf8Encode (t.take gs) ++ (utf8Encode sv ++ utf8Encode (t.drop ge)), []) := by
  obtain ⟨hgs16, hgsge, hgelen, hall, hnnil⟩ := searchPV_parts hs
  have hb : utf8Encode t = b := utf8Encode_utf8Decode b t hdec
  have hsplit : t = t.take gs ++ (sliceL t gs ge ++ t.drop ge) := slice_split hgsge (by omega)
  have hpatch := patch_xml_found sv [] hdec hs (Or.inl rfl)
  have henc1 : utf8Encode (t.take gs ++ (sv ++ t.drop ge))
      = utf8Encode (t.take gs) ++ (utf8Encode sv ++ utf8Encode (t.drop ge)) := by
    rw [utf8Encode_append, utf8Encode_append]
  refine ⟨by rw [hpatch, henc1], ?_, hall, hnnil, ?_⟩
  · rw [← hb]
    conv_lhs => rw [hsplit]
    rw [utf8Encode_append, utf8Encode_append]
  · have hpe := @processEntry_roject_ok sv [] [] ⟨nm, info, b⟩
      (utf8Encode (t.take gs ++ (sv ++ t.drop ge))) hsfx rfl hpatch
    rw [henc1] at hpe
    exact hpe

theorem C1_witness :
    sfxRoject.isSuffixOf "Project.xml".toList = true ∧
    utf8Decode (utf8Encode "<ProjectVersion>5</ProjectVersion>".toList)
      = some "<ProjectVersion>5</ProjectVersion>".toList ∧
    searchPV "<ProjectVersion>5</ProjectVersion>".toList = some (16, 17) ∧
    patch_xml_projectversion (utf8Encode "<ProjectVersion>5</ProjectVersion>".toList)
        "6".toList []
      = .ok (utf8Encode ("<ProjectVersion>5</ProjectVersion>".toList.take 16) ++
          (utf8Encode "6".toList ++
            utf8Encode ("<ProjectVersion>5</ProjectVersion>".toList.drop 17))) ∧
    utf8Encode "<ProjectVersion>5</ProjectVersion>".toList
      = utf8Encode ("<ProjectVersion>5</ProjectVersion>".toList.take 16) ++
          (utf8Encode (sliceL "<ProjectVersion>5</ProjectVersion>".toList 16 17) ++
            utf8Encode ("<ProjectVersion>5</ProjectVersion>".toList.drop 17)) :=
  ⟨by decide, rfl, rfl,
    (C1_single_capture_patch "Project.xml".toList []
      (utf8Encode "<ProjectVersion>5</ProjectVersion>".toList)
      "<ProjectVersion>5</ProjectVersion>".toList "6".toList 16 17 (by decide) rfl rfl).1,
    (C1_single_capture_patch "Project.xml".toList []
      (utf8Encode "<ProjectVersion>5</ProjectVersion>".toList)
      "<ProjectVersion>5</ProjectVersion>".toList "6".toList 16 17 (by decide) rfl rfl).2.1⟩

/-- C2: for every decodable blob matching the dual-capture pattern, when a
nonempty application-version target is supplied and the assertion (if
any) passes, the dual-capture patcher yields the original text with the
projver span replaced by the project-version target and the appver span
replaced by the application-version target — the second edit, applied by
the source to the already-mutated text at the original offsets, lands
exactly on the appver span because that span precedes the projver span,
so no offset drift occurs for any lengths of the replacements. -/
theorem C2_dual_capture_patch (b : List Nat) (t sv av sav : List Char) (as ae ps pe : Nat)
    (hdec : utf8Decode b = some t) (hs : searchCV t = some (as, ae, ps, pe))
    (hsav : sav ≠ []) (hpass : av = [] ∨ sliceL t ps pe = av) :
    patch_comment_version_info b sv av sav =
      .ok (utf8Encode (t.take as ++ (sav ++ (sliceL t ae ps ++ (sv ++ t.drop pe))))) ∧
    b = utf8Encode (t.take as ++ (sliceL t as ae ++ (sliceL t ae ps ++
      (sliceL t ps pe ++ t.drop pe)))) := by
  obtain ⟨h1, h2, h3, h4, _, _, _, _⟩ := searchCV_parts hs
  have hlenps : (t.take ps).length = ps := by
    simp [List.length_take]
    omega
  have hfound := patch_cv_found sv av sav hdec hs hpass
  rw [if_pos hsav] at hfound
  have eA : (t.take ps ++ (sv ++ t.drop pe)).take as = t.take as := by
    rw [List.take_append_of_le_length (by omega), List.take_take]
    congr 1
    omega
  have eB : (t.take ps ++ (sv ++ t.drop pe)).drop ae = sliceL t ae ps ++ (sv ++ t.drop pe) := by
    rw [List.drop_append_of_le_length (by omega)]
    congr 1
    rw [List.drop_take]
    rfl
  rw [eA, eB] at hfound
  refine ⟨by rw [hfound], ?_⟩
  have ht : t = t.take as ++ (sliceL t as ae ++ (sliceL t ae ps ++
      (sliceL t ps pe ++ t.drop pe))) := by
    conv_lhs => rw [← List.take_append_drop as t]
    congr 1
    rw [@drop_slice_split t as ae (by omega)]
    congr 1
    rw [@drop_slice_split t ae ps (by omega)]
    congr 1
    rw [@drop_slice_split t ps pe (by omega)]
  rw [← utf8Encode_utf8Decode b t hdec]
  exact congrArg utf8Encode ht

theorem C2_witness :
    utf8Decode (utf8Encode "<!-- DbAppVer=\"18.0\" DbPrjVer=\"5\" -->".toList)
      = some "<!-- DbAppVer=\"18.0\" DbPrjVer=\"5\" -->".toList ∧
    searchCV "<!-- DbAppVer=\"18.0\" DbPrjVer=\"5\" -->".toList = some (15, 19, 31, 32) ∧
    ("18.5".toList ≠ ([] : List Char)) ∧
    patch_comment_version_info (utf8Encode "<!-- DbAppVer=\"18.0\" DbPrjVer=\"5\" -->".toList)
        "6".toList [] "18.5".toList
      = .ok (utf8Encode ("<!-- DbAppVer=\"18.0\" DbPrjVer=\"5\" -->".toList.take 15 ++
          ("18.5".toList ++ (sliceL "<!-- DbAppVer=\"18.0\" DbPrjVer=\"5\" -->".toList 19 31 ++
            ("6".toList ++ "<!-- DbAppVer=\"18.0\" DbPrjVer=\"5\" -->".toList.drop 32))))) ∧
    patch_comment_version_info (utf8Encode "<!-- DbAppVer=\"18.0\" DbPrjVer=\"5\" -->".toList)
        "6".toList [] "18.5".toList
      = .ok (utf8Encode "<!-- DbAppVer=\"18.5\" DbPrjVer=\"6\" -->".toList) :=
  ⟨rfl, rfl, by decide,
    (C2_dual_capture_patch (utf8Encode "<!-- DbAppVer=\"18.0\" DbPrjVer=\"5\" -->".toList)
      "<!-- DbAppVer=\"18.0\" DbPrjVer=\"5\" -->".toList "6".toList [] "18.5".toList
      15 19 31 32 rfl rfl (by decide) (Or.inl rfl)).1,
    rfl⟩

/-- C6: for every decodable blob matching the dual-capture pattern, when
the application-version target is the empty string (and the assertion, if
any, passes), the patcher still replaces the projver span with the
project-version target but leaves the appver span untouched: the whole
prefix up to the projver span — which contains the appver span intact —
is preserved. -/
theorem C6_empty_appver_untouched (b : List Nat) (t sv av : List Char) (as ae ps pe : Nat)
    (hdec : utf8Decode b = some t) (hs : searchCV t = some (as, ae, ps, pe))
    (hpass : av = [] ∨ sliceL t ps pe = av) :
    patch_comment_version_info b sv av [] =
      .ok (utf8Encode (t.take ps ++ (sv ++ t.drop pe))) ∧
    t.take ps = t.take as ++ (sliceL t as ae ++ sliceL t ae ps) := by
  obtain ⟨h1, h2, h3, h4, _, _, _, _⟩ := searchCV_parts hs
  have hfound := patch_cv_found sv av [] hdec hs hpass
  rw [if_neg (by simp)] at hfound
  refine ⟨hfound, ?_⟩
  have e1 : t.take ps = t.take ae ++ sliceL t ae ps := @take_split t ae ps (by omega) (by omega)
  have e2 : t.take ae = t.take as ++ sliceL t as ae := @take_split t as ae h1 (by omega)
  rw [e1, e2, List.append_assoc]

/-- C3 counterexample: an entry on which a patcher matched with a
nonempty, mismatching assertion value, yet whose output content is NOT
byte-identical to the input.  The single-capture patcher fails its
assertion (captured `5`, expected `9`) and is skipped with one
diagnostic, but the dual-capture patch step — which runs on the same
entry because an application-version target is given and the name also
ends in `.xml` — captures `9`, passes the same assertion, and rewrites
the comment annotation, so the entry's content changes. -/
theorem C3_counterexample :
    sfxRoject.isSuffixOf "Project.xml".toList = true ∧
    utf8Decode (utf8Encode
        "<ProjectVersion>5</ProjectVersion><!-- DbAppVer=\"1\" DbPrjVer=\"9\" -->".toList)
      = some "<ProjectVersion>5</ProjectVersion><!-- DbAppVer=\"1\" DbPrjVer=\"9\" -->".toList ∧
    searchPV "<ProjectVersion>5</ProjectVersion><!-- DbAppVer=\"1\" DbPrjVer=\"9\" -->".toList
      = some (16, 17) ∧
    sliceL "<ProjectVersion>5</ProjectVersion><!-- DbAppVer=\"1\" DbPrjVer=\"9\" -->".toList
      16 17 = "5".toList ∧
    ("9".toList ≠ ([] : List Char)) ∧ "5".toList ≠ "9".toList ∧
    process_dr_project [⟨"Project.xml".toList, [],
        utf8Encode
          "<ProjectVersion>5</ProjectVersion><!-- DbAppVer=\"1\" DbPrjVer=\"9\" -->".toList⟩]
      "7".toList "9".toList "2".toList
      = .ok ([⟨"Project.xml".toList, [],
          utf8Encode
            "<ProjectVersion>5</ProjectVersion><!-- DbAppVer=\"2\" DbPrjVer=\"7\" -->".toList⟩],
        [⟨"5".toList, "9".toList⟩]) ∧
    utf8Encode "<ProjectVersion>5</ProjectVersion><!-- DbAppVer=\"2\" DbPrjVer=\"7\" -->".toList
      ≠ utf8Encode
          "<ProjectVersion>5</ProjectVersion><!-- DbAppVer=\"1\" DbPrjVer=\"9\" -->".toList :=
  ⟨by decide, rfl, rfl, rfl, by decide, by decide, rfl, by decide⟩

/-- C3 (amended): when a patcher matches, a nonempty assertion value is
given and it differs from the captured value, that patch step performs no
modification, exactly one diagnostic carrying the actual captured value
and the expected value is emitted for that step, and processing of the
remaining entries continues.  When no other patch step applies to the
entry (here: no application-version target, so only the single-capture
step runs), the entry's output content is byte-identical to the input. -/
theorem C3_assert_mismatch_skip (nm : List Char) (info b : List Nat) (t sv av : List Char)
    (gs ge : Nat) (rest out : List Entry) (ds : List Diag)
    (hsfx : sfxRoject.isSuffixOf nm = true)
    (hdec : utf8Decode b = some t) (hs : searchPV t = some (gs, ge))
    (hne : av ≠ []) (hdiff : sliceL t gs ge ≠ av)
    (hrest : process_dr_project rest sv av [] = .ok (out, ds)) :
    patch_xml_projectversion b sv av = .error (.assertErr (sliceL t gs ge)) ∧
    processEntry sv av [] ⟨nm, info, b⟩ = .ok (b, [⟨sliceL t gs ge, av⟩]) ∧
    process_dr_project (⟨nm, info, b⟩ :: rest) sv av [] =
      .ok (⟨nm, info, b⟩ :: out, ⟨sliceL t gs ge, av⟩ :: ds) := by
  have hp := patch_xml_assert_fail sv hdec hs hne hdiff
  have hpe := @processEntry_roject_assert_fail sv av [] ⟨nm, info, b⟩
    (sliceL t gs ge) hsfx rfl hp
  refine ⟨hp, hpe, ?_⟩
  have hc := process_cons_ok hpe hrest
  simpa using hc

theorem C3_amended_witness :
    patch_xml_projectversion (utf8Encode "<ProjectVersion>5</ProjectVersion>".toList)
      "6".toList "9".toList
      = .error (.assertErr (sliceL "<ProjectVersion>5</ProjectVersion>".toList 16 17)) ∧
    processEntry "6".toList "9".toList []
      ⟨"Project.xml".toList, [], utf8Encode "<ProjectVersion>5</ProjectVersion>".toList⟩
      = .ok (utf8Encode "<ProjectVersion>5</ProjectVersion>".toList,
        [⟨sliceL "<ProjectVersion>5</ProjectVersion>".toList 16 17, "9".toList⟩]) ∧
    process_dr_project
      [⟨"Project.xml".toList, [], utf8Encode "<ProjectVersion>5</ProjectVersion>".toList⟩]
      "6".toList "9".toList []
      = .ok ([⟨"Project.xml".toList, [],
          utf8Encode "<ProjectVersion>5</ProjectVersion>".toList⟩],
        [⟨sliceL "<ProjectVersion>5</ProjectVersion>".toList 16 17, "9".toList⟩]) :=
  C3_assert_mismatch_skip "Project.xml".toList []
    (utf8Encode "<ProjectVersion>5</ProjectVersion>".toList)
    "<ProjectVersion>5</ProjectVersion>".toList "6".toList "9".toList 16 17 [] [] []
    (by decide) rfl rfl (by decide) (by decide) rfl

/-- C7 counterexample: the round-trip claim fails when the intermediate
version V2 is not a digit string.  Patching `5` to `x` succeeds (the
captured span is replaced by the raw string), but the patched text no
longer matches the single-capture pattern (`\d+` cannot match `x`), so
the second patch — back to `5` with assertion `x` — finds nothing,
changes nothing, and the final container is not byte-identical to the
original. -/
theorem C7_counterexample :
    process_dr_project
      [⟨"Project.xml".toList, [], utf8Encode "<ProjectVersion>5</ProjectVersion>".toList⟩]
      "x".toList [] []
      = .ok ([⟨"Project.xml".toList, [],
          utf8Encode "<ProjectVersion>x</ProjectVersion>".toList⟩], []) ∧
    process_dr_project
      [⟨"Project.xml".toList, [], utf8Encode "<ProjectVersion>x</ProjectVersion>".toList⟩]
      "5".toList "x".toList []
      = .ok ([⟨"Project.xml".toList, [],
          utf8Encode "<ProjectVersion>x</ProjectVersion>".toList⟩], []) ∧
    utf8Encode "<ProjectVersion>x</ProjectVersion>".toList
      ≠ utf8Encode "<ProjectVersion>5</ProjectVersion>".toList :=
  ⟨rfl, rfl, by decide⟩

/-- One-blob round trip for the single-capture patcher: patching the
(V1-valued) capture to a nonempty digit string V2 and then patching back
to V1 with assertion V2 restores the original bytes exactly.  The key
step is first-match stability: the leftmost match of the patched text is
the patched span itself. -/
theorem patch_xml_roundtrip {b : List Nat} {t v1 v2 : List Char}
    (hdec : utf8Decode b = some t)
    (hv2dig : v2.all isDigitChar = true) (hv2ne : v2 ≠ [])
    (hcap : ∀ gs ge, searchPV t = some (gs, ge) → sliceL t gs ge = v1) :
    ∃ b', patch_xml_projectversion b v2 [] = .ok b' ∧
      patch_xml_projectversion b' v1 v2 = .ok b := by
  cases hs : searchPV t with
  | none =>
    exact ⟨b, patch_xml_no_match v2 [] hdec hs, patch_xml_no_match v1 v2 hdec hs⟩
  | some p =>
    rcases p with ⟨gs, ge⟩
    obtain ⟨h16, hgsge, hgelen, hall, hnnil⟩ := searchPV_parts hs
    have hv1 := hcap gs ge hs
    have hp1 := patch_xml_found v2 [] hdec hs (Or.inl rfl)
    have hdec2 : utf8Decode (utf8Encode (t.take gs ++ (v2 ++ t.drop ge)))
        = some (t.take gs ++ (v2 ++ t.drop ge)) := utf8Decode_utf8Encode _
    have hs2 : searchPV (t.take gs ++ (v2 ++ t.drop ge)) = some (gs, gs + v2.length) :=
      searchPV_stable hs hv2dig hv2ne
    have hlen : (t.take gs).length = gs := by
      simp [List.length_take]
      omega
    have hslice : sliceL (t.take gs ++ (v2 ++ t.drop ge)) gs (gs + v2.length) = v2 := by
      rw [sliceL, List.drop_left' hlen]
      have e0 : gs + v2.length - gs = v2.length := by omega
      rw [e0]
      exact List.take_left _ _
    have hp2 := patch_xml_found v1 v2 hdec2 hs2 (Or.inr hslice)
    refine ⟨utf8Encode (t.take gs ++ (v2 ++ t.drop ge)), hp1, ?_⟩
    rw [hp2]
    congr 1
    have e1 : (t.take gs ++ (v2 ++ t.drop ge)).take gs = t.take gs := List.take_left' hlen
    have e2 : (t.take gs ++ (v2 ++ t.drop ge)).drop (gs + v2.length) = t.drop ge := by
      rw [← List.append_assoc]
      exact List.drop_left' (by simp [hlen])
    rw [e1, e2, ← hv1, ← slice_split hgsge (by omega)]
    exact utf8Encode_utf8Decode b t hdec

/-- Entry-level round trip when only the single-capture step runs. -/
theorem processEntry_roundtrip {e : Entry} {v1 v2 : List Char}
    (hv2dig : v2.all isDigitChar = true) (hv2ne : v2 ≠ [])
    (hv1 : sfxRoject.isSuffixOf e.name = true →
      ∃ t, utf8Decode e.content = some t ∧
        ∀ gs ge, searchPV t = some (gs, ge) → sliceL t gs ge = v1) :
    ∃ d, processEntry v2 [] [] e = .ok (d, []) ∧
      processEntry v1 v2 [] ⟨e.name, e.info, d⟩ = .ok (e.content, []) := by
  by_cases hsfx : sfxRoject.isSuffixOf e.name = true
  · obtain ⟨t, hdec, hcap⟩ := hv1 hsfx
    obtain ⟨b', hp1, hp2⟩ := patch_xml_roundtrip hdec hv2dig hv2ne hcap
    exact ⟨b', @processEntry_roject_ok v2 [] [] e b' hsfx rfl hp1,
      @processEntry_roject_ok v1 v2 [] ⟨e.name, e.info, b'⟩ e.content hsfx rfl hp2⟩
  · have h1 : sfxRoject.isSuffixOf e.name = false := Bool.eq_false_iff.mpr hsfx
    exact ⟨e.content, processEntry_skip h1 (Or.inl rfl),
      @processEntry_skip v1 v2 [] ⟨e.name, e.info, e.content⟩ h1 (Or.inl rfl)⟩

/-- C7 (amended): round-trip for the rewriter with no application-version
target: if V2 is a nonempty string of decimal digits and every
project-file entry of the container decodes and captures V1 wherever the
single-capture pattern matches (the container "is at version V1"), then
patching to V2 and then from V2 back to V1 with assertion V2 restores
every entry byte-identically, with no diagnostics. -/
theorem C7_roundtrip_amended (es : List Entry) (v1 v2 : List Char)
    (hv2dig : v2.all isDigitChar = true) (hv2ne : v2 ≠ [])
    (hv1 : ∀ e ∈ es, sfxRoject.isSuffixOf e.name = true →
      ∃ t, utf8Decode e.content = some t ∧
        ∀ gs ge, searchPV t = some (gs, ge) → sliceL t gs ge = v1) :
    ∃ mid, process_dr_project es v2 [] [] = .ok (mid, []) ∧
      process_dr_project mid v1 v2 [] = .ok (es, []) := by
  induction es with
  | nil => exact ⟨[], rfl, rfl⟩
  | cons e rest ih =>
    obtain ⟨mid', hm1, hm2⟩ := ih (fun e' he' => hv1 e' (List.mem_cons_of_mem _ he'))
    obtain ⟨d, hp1, hp2⟩ := processEntry_roundtrip hv2dig hv2ne (hv1 e (List.mem_cons_self _ _))
    refine ⟨⟨e.name, e.info, d⟩ :: mid', ?_, ?_⟩
    · exact process_cons_ok hp1 hm1
    · exact process_cons_ok hp2 hm2

theorem C7_amended_witness :
    ("7".toList.all isDigitChar = true) ∧ ("7".toList ≠ ([] : List Char)) ∧
    ∃ mid, process_dr_project
        [⟨"Project.xml".toList, [], utf8Encode "<ProjectVersion>5</ProjectVersion>".toList⟩]
        "7".toList [] [] = .ok (mid, []) ∧
      process_dr_project mid "5".toList "7".toList []
        = .ok ([⟨"Project.xml".toList, [],
            utf8Encode "<ProjectVersion>5</ProjectVersion>".toList⟩], []) :=
  ⟨by decide, by decide,
    C7_roundtrip_amended
      [⟨"Project.xml".toList, [], utf8Encode "<ProjectVersion>5</ProjectVersion>".toList⟩]
      "5".toList "7".toList (by decide) (by decide)
      (by
        intro e he hsfx
        rw [List.mem_singleton] at he
        subst he
        refine ⟨"<ProjectVersion>5</ProjectVersion>".toList, rfl, ?_⟩
        intro gs ge hsge
        have h0 : searchPV "<ProjectVersion>5</ProjectVersion>".toList = some (16, 17) := rfl
        rw [h0] at hsge
        simp only [Option.some.injEq, Prod.mk.injEq] at hsge
        obtain ⟨rfl, rfl⟩ := hsge
        rfl)⟩

theorem C6_witness :
    patch_comment_version_info (utf8Encode "<!-- DbAppVer=\"18.0\" DbPrjVer=\"5\" -->".toList)
        "6".toList [] []
      = .ok (utf8Encode ("<!-- DbAppVer=\"18.0\" DbPrjVer=\"5\" -->".toList.take 31 ++
          ("6".toList ++ "<!-- DbAppVer=\"18.0\" DbPrjVer=\"5\" -->".toList.drop 32))) ∧
    "<!-- DbAppVer=\"18.0\" DbPrjVer=\"5\" -->".toList.take 31
      = "<!-- DbAppVer=\"18.0\" DbPrjVer=\"5\" -->".toList.take 15 ++
        (sliceL "<!-- DbAppVer=\"18.0\" DbPrjVer=\"5\" -->".toList 15 19 ++
          sliceL "<!-- DbAppVer=\"18.0\" DbPrjVer=\"5\" -->".toList 19 31) :=
  C6_empty_appver_untouched (utf8Encode "<!-- DbAppVer=\"18.0\" DbPrjVer=\"5\" -->".toList)
    "<!-- DbAppVer=\"18.0\" DbPrjVer=\"5\" -->".toList "6".toList [] 15 19 31 32
    rfl rfl (Or.inl rfl)
